import Mathlib

/-!
# Verification of the Bug-Fixing-Assistant core

Shallow embedding of the repository's scanner/fixer core:

* `src/scanner/detectors/{pattern,security,quality}_detector.py` — tree
  walkers over a Python-AST model (`PyExpr`/`PyStmt`), faithful to
  `ast.NodeVisitor` dispatch and `generic_visit` field order.
* `src/scanner/core/scanner.py` and `src/main.py` — scan orchestration.
* `src/fixer/validators/fix_validator.py` — syntax validation over an
  abstract parser (`ast.parse` is abstracted as a function
  `String → Except SynErr PyModule`; the embedding is parametric in it).
* `src/fixer/fix_applicator.py` — fix application over an explicit
  filesystem state, including a faithful embedding of the CPython
  `difflib` routines (`SequenceMatcher` with `isjunk=None`, `autojunk=True`,
  `get_matching_blocks`, `get_opcodes`, `get_grouped_opcodes`,
  `unified_diff`) that `_generate_diff` calls.

Python dictionaries used as records are embedded as structures with
`Option` fields (`none` = key absent); `dict.get` defaults are made
explicit at each use site, mirroring the source.
-/

namespace BugFix

/-! ## Python string semantics

`str.splitlines` splits at the Unicode line boundaries listed in the
CPython documentation; `keepends=True` keeps each boundary with its line.
A `\r\n` pair counts as a single boundary. -/

def isLineBreak (c : Char) : Bool :=
  c = '\n' || c = '\r' || c = '\u000b' || c = '\u000c' ||
  c = '\u001c' || c = '\u001d' || c = '\u001e' ||
  c = '\u0085' || c = ' ' || c = ' '

/-- Worker for `splitlines(keepends=True)`: `cur` is the reversed prefix of
the current (unterminated) line. -/
def splitKeepAux : List Char → List Char → List (List Char)
  | [], [] => []
  | [], cur => [cur.reverse]
  | '\r' :: '\n' :: rest, cur => (cur.reverse ++ ['\r', '\n']) :: splitKeepAux rest []
  | c :: rest, cur =>
    if isLineBreak c then (cur.reverse ++ [c]) :: splitKeepAux rest []
    else splitKeepAux rest (c :: cur)

/-- Python `content.splitlines(keepends=True)`. -/
def pySplitKeep (s : String) : List String :=
  (splitKeepAux s.data []).map fun l => ⟨l⟩

/-- Python `"".join(lines)`. -/
def pyJoin (lines : List String) : String :=
  String.join lines

set_option maxHeartbeats 2000000 in
/-- The chunks produced by `splitKeepAux` concatenate back to the input. -/
theorem splitKeepAux_flatten (cs cur : List Char) :
    (splitKeepAux cs cur).flatten = cur.reverse ++ cs := by
  induction cs, cur using splitKeepAux.induct with
  | case1 => rfl
  | case2 cur h => simp [splitKeepAux]
  | case3 rest cur ih => simp [splitKeepAux, ih]
  | case4 c rest cur hcr hbk ih => simp [splitKeepAux, hbk, ih]
  | case5 c rest cur hcr hbk ih => simp [splitKeepAux, hbk, ih]

/-- `"".join(s.splitlines(keepends=True)) == s`: splitting with kept line
ends partitions the string. -/
theorem pyJoin_pySplitKeep (s : String) : pyJoin (pySplitKeep s) = s := by
  apply String.ext
  rw [pyJoin, String.data_join, pySplitKeep, List.map_map]
  have h : (String.data ∘ fun l : List Char => (⟨l⟩ : String)) = id := by
    funext l; rfl
  rw [h, List.map_id]
  simpa using splitKeepAux_flatten s.data []

/-! ## Decimal formatting and parsing

Python's `str(n)` for a natural number, and a parser for the hunk headers
the diff applier reads back.  `natToDec` produces the standard decimal
digits, most significant first. -/

/-- Fuel-driven digit emitter (`n + 1` units of fuel always suffice, and
keeping the recursion structural lets the kernel evaluate it). -/
def natToDecGo : Nat → Nat → List Char → List Char
  | 0, _, acc => acc
  | fuel + 1, n, acc =>
    if n < 10 then Nat.digitChar n :: acc
    else natToDecGo fuel (n / 10) (Nat.digitChar (n % 10) :: acc)

def natToDecAux (n : Nat) (acc : List Char) : List Char :=
  natToDecGo (n + 1) n acc

def natToDec (n : Nat) : String := ⟨natToDecAux n []⟩

theorem natToDecGo_stable (fuel : Nat) :
    ∀ n acc, n < fuel → natToDecGo fuel n acc = natToDecAux n acc := by
  induction fuel using Nat.strong_induction_on with
  | _ fuel ih =>
      intro n acc h
      match fuel, h with
      | fuel + 1, h =>
        by_cases h10 : n < 10
        · rw [natToDecGo, if_pos h10]
          unfold natToDecAux
          rw [natToDecGo, if_pos h10]
        · rw [natToDecGo, if_neg h10,
            ih fuel (by omega) (n / 10) _ (by omega)]
          unfold natToDecAux
          conv_rhs => rw [natToDecGo]
          rw [if_neg h10]
          exact (ih n (by omega) (n / 10) _ (by omega)).symm

/-- The defining recursion of `natToDecAux`. -/
theorem natToDecAux_unfold (n : Nat) (acc : List Char) :
    natToDecAux n acc =
      if n < 10 then Nat.digitChar n :: acc
      else natToDecAux (n / 10) (Nat.digitChar (n % 10) :: acc) := by
  by_cases h10 : n < 10
  · unfold natToDecAux
    rw [natToDecGo, if_pos h10, if_pos h10]
  · conv_lhs => rw [natToDecAux]
    rw [natToDecGo, if_neg h10, if_neg h10]
    exact natToDecGo_stable n (n / 10) _ (by omega)

def isDigitChar (c : Char) : Bool := 48 ≤ c.toNat && c.toNat ≤ 57

/-- Consume the leading decimal digits of `cs`, accumulating their value
onto `acc`; return the value and the unconsumed rest. -/
def takeDigits : List Char → Nat → Nat × List Char
  | [], acc => (acc, [])
  | c :: rest, acc =>
    if isDigitChar c then takeDigits rest (acc * 10 + (c.toNat - 48))
    else (acc, c :: rest)

theorem digitChar_toNat (d : Nat) (h : d < 10) :
    (Nat.digitChar d).toNat = 48 + d := by
  interval_cases d <;> rfl

theorem digitChar_isDigit (d : Nat) (h : d < 10) :
    isDigitChar (Nat.digitChar d) = true := by
  interval_cases d <;> rfl

theorem natToDecAux_append (n : Nat) (acc : List Char) :
    natToDecAux n acc = natToDecAux n [] ++ acc := by
  induction n using Nat.strong_induction_on generalizing acc with
  | _ n ih =>
      by_cases h : n < 10
      · conv_lhs => rw [natToDecAux_unfold]
        conv_rhs => rw [natToDecAux_unfold]
        simp [h]
      · conv_lhs => rw [natToDecAux_unfold]
        conv_rhs => rw [natToDecAux_unfold]
        simp only [if_neg h]
        rw [ih (n / 10) (Nat.div_lt_self (by omega) (by omega)),
          ih (n / 10) (Nat.div_lt_self (by omega) (by omega))
            (Nat.digitChar (n % 10) :: [])]
        simp

theorem takeDigits_natToDec (n : Nat) (rest : List Char) (acc : Nat) :
    takeDigits (natToDecAux n [] ++ rest) acc =
      takeDigits rest (acc * 10 ^ (natToDecAux n []).length + n) := by
  induction n using Nat.strong_induction_on generalizing rest acc with
  | _ n ih =>
      by_cases h : n < 10
      · conv_lhs => rw [natToDecAux_unfold]
        simp only [if_pos h, List.cons_append, List.nil_append]
        rw [takeDigits, if_pos (digitChar_isDigit n h), digitChar_toNat n h]
        have hlen : (natToDecAux n []).length = 1 := by
          rw [natToDecAux_unfold]; simp [h]
        rw [hlen]
        congr 2
        omega
      · conv_lhs => rw [natToDecAux_unfold]
        simp only [if_neg h]
        rw [natToDecAux_append]
        have hstep : (natToDecAux (n / 10) [] ++ [Nat.digitChar (n % 10)]) ++ rest =
            natToDecAux (n / 10) [] ++ (Nat.digitChar (n % 10) :: rest) := by
          simp
        rw [hstep, ih (n / 10) (Nat.div_lt_self (by omega) (by omega))]
        rw [takeDigits, if_pos (digitChar_isDigit _ (by omega)),
          digitChar_toNat _ (by omega)]
        have hlen : (natToDecAux n []).length = (natToDecAux (n / 10) []).length + 1 := by
          conv_lhs => rw [natToDecAux_unfold]
          simp only [if_neg h]
          rw [natToDecAux_append]
          simp
        rw [hlen]
        congr 1
        have hmod : 48 + n % 10 - 48 = n % 10 := by omega
        rw [hmod, pow_succ]
        have hexp : (acc * 10 ^ (natToDecAux (n / 10) []).length + n / 10) * 10 + n % 10 =
            acc * (10 ^ (natToDecAux (n / 10) []).length * 10) + (n / 10 * 10 + n % 10) := by
          ring
        rw [hexp]
        congr 1
        omega

/-- A decimal numeral is never empty and never starts with a non-digit, so a
parser that stops at the first non-digit consumes exactly the numeral. -/
theorem takeDigits_natToDec_stop (n : Nat) (rest : List Char)
    (hrest : ∀ c rest2, rest = c :: rest2 → isDigitChar c = false) :
    takeDigits (natToDecAux n [] ++ rest) 0 = (n, rest) := by
  rw [takeDigits_natToDec]
  cases rest with
  | nil => simp [takeDigits]
  | cons c rest2 =>
      rw [takeDigits]
      rw [if_neg (by simp [hrest c rest2 rfl])]
      simp

/-! ## Python AST model

A model of the `ast` nodes the three detectors inspect.  Constructor
fields follow the order of each node's `_fields` tuple, which is the
order `ast.NodeVisitor.generic_visit` walks children in.  The model
covers: constants restricted to `int`/`bool`/`str`/`None` values (no
floats/complex), plain (non-async, undecorated, unannotated) function
definitions, classes without bases or keywords, `with` items without
`as`-targets, and the statement/expression kinds below; programs outside
this fragment are outside the model's universe.  Negative numeric
literals do not occur as `Constant` nodes in CPython (they parse as
`UnaryOp(USub, Constant(n))`), which the model mirrors with `unaryOp`. -/

inductive PyVal where
  | intVal (i : Int)
  | boolVal (b : Bool)
  | strVal (s : String)
  | noneVal
deriving DecidableEq, Repr

/-- Python `str(value)` for the constant values of the model. -/
def PyVal.pystr : PyVal → String
  | .intVal i => toString i
  | .boolVal b => if b then "True" else "False"
  | .strVal s => s
  | .noneVal => "None"

inductive CmpOp where
  | eq | notEq | lt | lte | gt | gte | isOp | isNotOp | inOp | notInOp
deriving DecidableEq, Repr

inductive PyExpr where
  | constant (value : PyVal) (lineno : Nat)
  | name (id : String) (lineno : Nat)
  | attribute (value : PyExpr) (attr : String) (lineno : Nat)
  | compare (left : PyExpr) (ops : List CmpOp) (comparators : List PyExpr) (lineno : Nat)
  | call (func : PyExpr) (args : List PyExpr) (lineno : Nat)
  | listLit (elts : List PyExpr) (lineno : Nat)
  | dictLit (keys : List PyExpr) (values : List PyExpr) (lineno : Nat)
  | setLit (elts : List PyExpr) (lineno : Nat)
  | binOp (left : PyExpr) (right : PyExpr) (lineno : Nat)
  | unaryOp (operand : PyExpr) (lineno : Nat)

/-- `ast.arguments`: parameter names by kind plus default expressions.
`kwDefaults` entries may be `None` in CPython; `generic_visit` skips
those. -/
structure PyArgs where
  posonlyargs : List String
  args : List String
  vararg : Option String
  kwonlyargs : List String
  kwDefaults : List (Option PyExpr)
  kwarg : Option String
  defaults : List PyExpr

structure PyAlias where
  name : String
  asname : Option String
deriving DecidableEq, Repr

inductive PyStmt where
  | functionDef (name : String) (args : PyArgs) (body : List PyStmt) (lineno : Nat)
  | classDef (name : String) (body : List PyStmt) (lineno : Nat)
  | ifStmt (test : PyExpr) (body orelse : List PyStmt) (lineno : Nat)
  | forStmt (target iter : PyExpr) (body orelse : List PyStmt) (lineno : Nat)
  | whileStmt (test : PyExpr) (body orelse : List PyStmt) (lineno : Nat)
  | tryStmt (body : List PyStmt) (handlers : List (Option PyExpr × Nat × List PyStmt))
      (orelse finalbody : List PyStmt) (lineno : Nat)
  | withStmt (items : List PyExpr) (body : List PyStmt) (lineno : Nat)
  | assertStmt (test : PyExpr) (msg : Option PyExpr) (lineno : Nat)
  | importStmt (names : List PyAlias) (lineno : Nat)
  | importFrom (module : Option String) (names : List PyAlias) (lineno : Nat)
  | assign (targets : List PyExpr) (value : PyExpr) (lineno : Nat)
  | exprStmt (value : PyExpr) (lineno : Nat)
  | ret (value : Option PyExpr) (lineno : Nat)
  | passStmt (lineno : Nat)

structure PyModule where
  body : List PyStmt

/-- `ast.parse`'s `SyntaxError`: message, 1-based line, column offset. -/
structure SynErr where
  msg : String
  lineno : Nat
  offset : Nat
deriving DecidableEq, Repr

/-- The abstracted `ast.parse`: the whole embedding is parametric in it. -/
def PyParser : Type := String → Except SynErr PyModule

/-- One detected finding, as the detector dictionaries build it: all five
keys always present. -/
structure DIssue where
  file : String
  line : Nat
  type : String
  message : String
  severity : String
deriving DecidableEq, Repr

/-- `ast.get_docstring(node) is not None`: the first body statement is an
expression statement whose value is a string constant. -/
def getDocstring : List PyStmt → Option String
  | .exprStmt (.constant (.strVal s) _) _ :: _ => some s
  | _ => none

def mkIssue (fp : String) (ln : Nat) (ty msg sev : String) : DIssue :=
  ⟨fp, ln, ty, msg, sev⟩

def charListPrefix : List Char → List Char → Bool
  | [], _ => true
  | _ :: _, [] => false
  | c :: cs, d :: ds => c = d && charListPrefix cs ds

/-- Python `s.startswith(pre)`. -/
def pyStartsWith (s pre : String) : Bool :=
  charListPrefix pre.data s.data

/-! ## Pattern detector (`src/scanner/detectors/pattern_detector.py`)

`PatternDetector(ast.NodeVisitor)` with `visit_Compare`,
`visit_ExceptHandler`, `visit_FunctionDef`, `visit_Import`,
`visit_ImportFrom`; every other node kind falls through to
`generic_visit`.  The accumulated issue list is `self.issues`, appended in
visit order. -/

/-- The `zip(node.ops, node.comparators)` loop of `visit_Compare`. -/
def noneCompEmits (fp : String) (ln : Nat) : List CmpOp → List PyExpr → List DIssue
  | op :: ops, comp :: comps =>
      (match comp, op with
        | .constant .noneVal _, .eq =>
            [mkIssue fp ln "none_comparison"
              "Use \"is None\" or \"is not None\" instead of \"== None\" or \"!= None\""
              "warning"]
        | .constant .noneVal _, .notEq =>
            [mkIssue fp ln "none_comparison"
              "Use \"is None\" or \"is not None\" instead of \"== None\" or \"!= None\""
              "warning"]
        | _, _ => []) ++ noneCompEmits fp ln ops comps
  | _, _ => []

/-- The `node.args.defaults` loop of the pattern detector's
`visit_FunctionDef`: one issue per mutable (list/dict/set literal)
default. -/
def mutableDefaultEmits (fp nm : String) (ln : Nat) : List PyExpr → List DIssue
  | [] => []
  | d :: rest =>
      (match d with
        | .listLit _ _ => [mkIssue fp ln "mutable_default_argument"
            ("Function \"" ++ nm ++ "\" has mutable default argument") "warning"]
        | .dictLit _ _ _ => [mkIssue fp ln "mutable_default_argument"
            ("Function \"" ++ nm ++ "\" has mutable default argument") "warning"]
        | .setLit _ _ => [mkIssue fp ln "mutable_default_argument"
            ("Function \"" ++ nm ++ "\" has mutable default argument") "warning"]
        | _ => []) ++ mutableDefaultEmits fp nm ln rest

/-- `visit_Import`'s alias loop (a bare `import *` cannot be produced by the
real parser, but the detector tests for it all the same). -/
def wildcardImportEmits (fp : String) (ln : Nat) : List PyAlias → List DIssue
  | [] => []
  | a :: rest =>
      (if a.name = "*" then
        [mkIssue fp ln "wildcard_import" "Avoid wildcard imports (from module import *)" "info"]
      else []) ++ wildcardImportEmits fp ln rest

/-- `visit_ImportFrom`'s alias loop; `node.module` is `None` for relative
imports and Python interpolates it as the text `None`. -/
def wildcardImportFromEmits (fp : String) (mod : Option String) (ln : Nat) :
    List PyAlias → List DIssue
  | [] => []
  | a :: rest =>
      (if a.name = "*" then
        [mkIssue fp ln "wildcard_import"
          ("Avoid wildcard imports (from " ++ mod.getD "None" ++ " import *)") "info"]
      else []) ++ wildcardImportFromEmits fp mod ln rest

mutual
/-- Pattern detector on expressions: `visit_Compare` plus `generic_visit`
recursion in `_fields` order. -/
def patExpr (fp : String) : PyExpr → List DIssue → List DIssue
  | .constant _ _, acc => acc
  | .name _ _, acc => acc
  | .attribute v _ _, acc => patExpr fp v acc
  | .compare l ops comps ln, acc =>
      patExprs fp comps (patExpr fp l (acc ++ noneCompEmits fp ln ops comps))
  | .call f args _, acc => patExprs fp args (patExpr fp f acc)
  | .listLit elts _, acc => patExprs fp elts acc
  | .dictLit ks vs _, acc => patExprs fp vs (patExprs fp ks acc)
  | .setLit elts _, acc => patExprs fp elts acc
  | .binOp l r _, acc => patExpr fp r (patExpr fp l acc)
  | .unaryOp o _, acc => patExpr fp o acc
def patExprs (fp : String) : List PyExpr → List DIssue → List DIssue
  | [], acc => acc
  | e :: rest, acc => patExprs fp rest (patExpr fp e acc)
end

mutual
/-- Pattern detector on statements. -/
def patStmt (fp : String) : PyStmt → List DIssue → List DIssue
  | .functionDef nm args body ln, acc =>
      let acc := acc ++ mutableDefaultEmits fp nm ln args.defaults
      let acc := patExprs fp (args.kwDefaults.filterMap id) acc
      let acc := patExprs fp args.defaults acc
      patStmts fp body acc
  | .classDef _ body _, acc => patStmts fp body acc
  | .ifStmt t b o _, acc => patStmts fp o (patStmts fp b (patExpr fp t acc))
  | .forStmt tgt it b o _, acc =>
      patStmts fp o (patStmts fp b (patExpr fp it (patExpr fp tgt acc)))
  | .whileStmt t b o _, acc => patStmts fp o (patStmts fp b (patExpr fp t acc))
  | .tryStmt b hs o f _, acc =>
      patStmts fp f (patStmts fp o (patHandlers fp hs (patStmts fp b acc)))
  | .withStmt items b _, acc => patStmts fp b (patExprs fp items acc)
  | .assertStmt t m _, acc =>
      (match m with
        | some e => patExpr fp e (patExpr fp t acc)
        | none => patExpr fp t acc)
  | .importStmt names ln, acc => acc ++ wildcardImportEmits fp ln names
  | .importFrom mod names ln, acc => acc ++ wildcardImportFromEmits fp mod ln names
  | .assign tgts v _, acc => patExpr fp v (patExprs fp tgts acc)
  | .exprStmt v _, acc => patExpr fp v acc
  | .ret v _, acc =>
      (match v with
        | some e => patExpr fp e acc
        | none => acc)
  | .passStmt _, acc => acc
def patStmts (fp : String) : List PyStmt → List DIssue → List DIssue
  | [], acc => acc
  | st :: rest, acc => patStmts fp rest (patStmt fp st acc)
/-- `visit_ExceptHandler`: a handler with no exception type is a
`bare_except`; children (`type`, `body`) are then visited. -/
def patHandlers (fp : String) :
    List (Option PyExpr × Nat × List PyStmt) → List DIssue → List DIssue
  | [], acc => acc
  | (ty, hln, hbody) :: rest, acc =>
      let acc := (if ty.isNone then
          acc ++ [mkIssue fp hln "bare_except"
            "Bare except clause should specify exception type" "warning"]
        else acc)
      let acc := (match ty with
        | some e => patExpr fp e acc
        | none => acc)
      patHandlers fp rest (patStmts fp hbody acc)
end

/-- `PatternDetector(file).visit(ast.parse(content))`'s issue list. -/
def patternIssues (fp : String) (m : PyModule) : List DIssue :=
  patStmts fp m.body []

/-- `detect_patterns(file_path, content)`: parse failures yield `[]`. -/
def detectPatterns (parse : PyParser) (fp content : String) : List DIssue :=
  match parse content with
  | .ok m => patternIssues fp m
  | .error _ => []

/-! ## Security detector (`src/scanner/detectors/security_detector.py`)

`SecurityDetector(ast.NodeVisitor)` with `visit_Call` and `visit_Import`;
everything else falls through to `generic_visit`. -/

/-- The checks of `visit_Call`, in source order. -/
def callEmits (fp : String) (ln : Nat) (f : PyExpr) : List DIssue :=
  let acc : List DIssue := []
  let acc := acc ++ (match f with
    | .name "eval" _ => [mkIssue fp ln "dangerous_eval"
        "Use of eval() is dangerous and should be avoided" "critical"]
    | _ => [])
  let acc := acc ++ (match f with
    | .name "exec" _ => [mkIssue fp ln "dangerous_exec"
        "Use of exec() is dangerous and should be avoided" "critical"]
    | _ => [])
  acc ++ (match f with
    | .attribute (.name "pickle" _) "loads" _ =>
        [mkIssue fp ln "unsafe_deserialization"
          "pickle.loads() can execute arbitrary code; use with caution" "high"]
    | _ => [])

/-- `visit_Import`'s alias loop: a plain `import pickle`. -/
def pickleImportEmits (fp : String) (ln : Nat) : List PyAlias → List DIssue
  | [] => []
  | a :: rest =>
      (if a.name = "pickle" then
        [mkIssue fp ln "insecure_module"
          "pickle module can be unsafe; consider using json instead" "info"]
      else []) ++ pickleImportEmits fp ln rest

mutual
def secExpr (fp : String) : PyExpr → List DIssue → List DIssue
  | .constant _ _, acc => acc
  | .name _ _, acc => acc
  | .attribute v _ _, acc => secExpr fp v acc
  | .compare l _ comps _, acc => secExprs fp comps (secExpr fp l acc)
  | .call f args ln, acc => secExprs fp args (secExpr fp f (acc ++ callEmits fp ln f))
  | .listLit elts _, acc => secExprs fp elts acc
  | .dictLit ks vs _, acc => secExprs fp vs (secExprs fp ks acc)
  | .setLit elts _, acc => secExprs fp elts acc
  | .binOp l r _, acc => secExpr fp r (secExpr fp l acc)
  | .unaryOp o _, acc => secExpr fp o acc
def secExprs (fp : String) : List PyExpr → List DIssue → List DIssue
  | [], acc => acc
  | e :: rest, acc => secExprs fp rest (secExpr fp e acc)
end

mutual
def secStmt (fp : String) : PyStmt → List DIssue → List DIssue
  | .functionDef _ args body _, acc =>
      let acc := secExprs fp (args.kwDefaults.filterMap id) acc
      let acc := secExprs fp args.defaults acc
      secStmts fp body acc
  | .classDef _ body _, acc => secStmts fp body acc
  | .ifStmt t b o _, acc => secStmts fp o (secStmts fp b (secExpr fp t acc))
  | .forStmt tgt it b o _, acc =>
      secStmts fp o (secStmts fp b (secExpr fp it (secExpr fp tgt acc)))
  | .whileStmt t b o _, acc => secStmts fp o (secStmts fp b (secExpr fp t acc))
  | .tryStmt b hs o f _, acc =>
      secStmts fp f (secStmts fp o (secHandlers fp hs (secStmts fp b acc)))
  | .withStmt items b _, acc => secStmts fp b (secExprs fp items acc)
  | .assertStmt t m _, acc =>
      (match m with
        | some e => secExpr fp e (secExpr fp t acc)
        | none => secExpr fp t acc)
  | .importStmt names ln, acc => acc ++ pickleImportEmits fp ln names
  | .importFrom _ _ _, acc => acc
  | .assign tgts v _, acc => secExpr fp v (secExprs fp tgts acc)
  | .exprStmt v _, acc => secExpr fp v acc
  | .ret v _, acc =>
      (match v with
        | some e => secExpr fp e acc
        | none => acc)
  | .passStmt _, acc => acc
def secStmts (fp : String) : List PyStmt → List DIssue → List DIssue
  | [], acc => acc
  | st :: rest, acc => secStmts fp rest (secStmt fp st acc)
def secHandlers (fp : String) :
    List (Option PyExpr × Nat × List PyStmt) → List DIssue → List DIssue
  | [], acc => acc
  | (ty, _, hbody) :: rest, acc =>
      let acc := (match ty with
        | some e => secExpr fp e acc
        | none => acc)
      secHandlers fp rest (secStmts fp hbody acc)
end

/-- `SecurityDetector(file).visit(ast.parse(content))`'s issue list. -/
def securityIssues (fp : String) (m : PyModule) : List DIssue :=
  secStmts fp m.body []

/-- `detect_security_issues(file_path, content)`. -/
def detectSecurity (parse : PyParser) (fp content : String) : List DIssue :=
  match parse content with
  | .ok m => securityIssues fp m
  | .error _ => []

/-! ## Quality detector (`src/scanner/detectors/quality_detector.py`)

`QualityDetector(ast.NodeVisitor)` keeps mutable walker state:
`self.issues`, `self.current_function`, `self.complexity_count`.
`visit_FunctionDef` saves and restores the latter two around the visit.
Expressions never touch the function/complexity state (no `visit_` method
on an expression kind does), so the expression walker threads only the
issue list. -/

structure QState where
  issues : List DIssue
  curFn : Option String
  cc : Nat

/-- The numeric-literal test of `visit_Constant`:
`isinstance(node.value, (int, float))` — which is also true of `bool`,
whose `==` identifies `True`/`False` with `1`/`0`. -/
def pyNumVal : PyVal → Option Int
  | .intVal i => some i
  | .boolVal b => some (if b then 1 else 0)
  | _ => none

/-- `visit_Constant`'s magic-number check.  The source guards the report
with `parent = getattr(node, "parent", None); if not isinstance(parent,
ast.Assign)` — but no code in the repository ever assigns a `parent`
attribute to any AST node, so the lookup constantly yields `None`,
`isinstance(None, ast.Assign)` is `False`, and the guard never suppresses
a report.  The embedding reflects that constant outcome. -/
def magicNumberEmits (fp : String) (ln : Nat) (v : PyVal) : List DIssue :=
  match pyNumVal v with
  | some n =>
      if ([0, 1, -1, 2, 10, 100, 1000] : List Int).contains n then []
      else [mkIssue fp ln "magic_number"
        ("Magic number " ++ v.pystr ++ " should be a named constant") "info"]
  | none => []

mutual
def qExpr (fp : String) : PyExpr → List DIssue → List DIssue
  | .constant v ln, acc => acc ++ magicNumberEmits fp ln v
  | .name _ _, acc => acc
  | .attribute v _ _, acc => qExpr fp v acc
  | .compare l _ comps _, acc => qExprs fp comps (qExpr fp l acc)
  | .call f args _, acc => qExprs fp args (qExpr fp f acc)
  | .listLit elts _, acc => qExprs fp elts acc
  | .dictLit ks vs _, acc => qExprs fp vs (qExprs fp ks acc)
  | .setLit elts _, acc => qExprs fp elts acc
  | .binOp l r _, acc => qExpr fp r (qExpr fp l acc)
  | .unaryOp o _, acc => qExpr fp o acc
def qExprs (fp : String) : List PyExpr → List DIssue → List DIssue
  | [], acc => acc
  | e :: rest, acc => qExprs fp rest (qExpr fp e acc)
end

/-- `total_args` of `visit_FunctionDef`: `len(node.args.args) +
len(node.args.posonlyargs) + len(node.args.kwonlyargs)` — the `vararg`
(`*args`) and `kwarg` (`**kwargs`) parameter kinds are not counted. -/
def totalArgs (a : PyArgs) : Nat :=
  a.args.length + a.posonlyargs.length + a.kwonlyargs.length

def isFunctionDefStmt : PyStmt → Bool
  | .functionDef _ _ _ _ => true
  | _ => false

/-- One complexity increment: `if self.current_function:
self.complexity_count += 1`. -/
def bumpCC (s : QState) : QState :=
  if s.curFn.isSome then { s with cc := s.cc + 1 } else s

mutual
def qStmt (fp : String) : PyStmt → QState → QState
  | .functionDef nm args body ln, s =>
      let prevFn := s.curFn
      let prevCc := s.cc
      let s := { s with curFn := some nm, cc := 1 }
      let s := (if totalArgs args > 7 then
          { s with issues := s.issues ++ [mkIssue fp ln "too_many_arguments"
            ("Function \"" ++ nm ++ "\" has " ++ natToDec (totalArgs args) ++
              " arguments (max recommended: 7)") "info"] }
        else s)
      let s := (if (getDocstring body).isNone ∧ ¬ pyStartsWith nm "_" then
          { s with issues := s.issues ++ [mkIssue fp ln "missing_docstring"
            ("Public function \"" ++ nm ++ "\" is missing a docstring") "info"] }
        else s)
      let s := { s with issues := qExprs fp (args.kwDefaults.filterMap id) s.issues }
      let s := { s with issues := qExprs fp args.defaults s.issues }
      let s := qStmts fp body s
      let s := (if s.cc > 10 then
          { s with issues := s.issues ++ [mkIssue fp ln "high_complexity"
            ("Function \"" ++ nm ++ "\" has high cyclomatic complexity (" ++
              natToDec s.cc ++ ")") "warning"] }
        else s)
      { s with curFn := prevFn, cc := prevCc }
  | .classDef nm body ln, s =>
      let s := (if (getDocstring body).isNone ∧ ¬ pyStartsWith nm "_" then
          { s with issues := s.issues ++ [mkIssue fp ln "missing_docstring"
            ("Public class \"" ++ nm ++ "\" is missing a docstring") "info"] }
        else s)
      let methodCount := (body.filter isFunctionDefStmt).length
      let s := (if methodCount > 20 then
          { s with issues := s.issues ++ [mkIssue fp ln "too_many_methods"
            ("Class \"" ++ nm ++ "\" has " ++ natToDec methodCount ++
              " methods (possible God object)") "warning"] }
        else s)
      qStmts fp body s
  | .ifStmt t b o _, s =>
      let s := bumpCC s
      let s := { s with issues := qExpr fp t s.issues }
      qStmts fp o (qStmts fp b s)
  | .forStmt tgt it b o _, s =>
      let s := bumpCC s
      let s := { s with issues := qExpr fp it (qExpr fp tgt s.issues) }
      qStmts fp o (qStmts fp b s)
  | .whileStmt t b o _, s =>
      let s := bumpCC s
      let s := { s with issues := qExpr fp t s.issues }
      qStmts fp o (qStmts fp b s)
  | .tryStmt b hs o f _, s =>
      qStmts fp f (qStmts fp o (qHandlers fp hs (qStmts fp b s)))
  | .withStmt items b _, s =>
      let s := bumpCC s
      let s := { s with issues := qExprs fp items s.issues }
      qStmts fp b s
  | .assertStmt t m ln, s =>
      let s := { s with issues := s.issues ++ [mkIssue fp ln "assert_statement"
        "Using assert in production code (can be disabled with python -O)" "info"] }
      let s := { s with issues := qExpr fp t s.issues }
      (match m with
        | some e => { s with issues := qExpr fp e s.issues }
        | none => s)
  | .importStmt _ _, s => s
  | .importFrom _ _ _, s => s
  | .assign tgts v _, s =>
      { s with issues := qExpr fp v (qExprs fp tgts s.issues) }
  | .exprStmt v _, s => { s with issues := qExpr fp v s.issues }
  | .ret v _, s =>
      (match v with
        | some e => { s with issues := qExpr fp e s.issues }
        | none => s)
  | .passStmt _, s => s
def qStmts (fp : String) : List PyStmt → QState → QState
  | [], s => s
  | st :: rest, s => qStmts fp rest (qStmt fp st s)
/-- `visit_ExceptHandler`: complexity bump, then children (`type`,
`body`). -/
def qHandlers (fp : String) :
    List (Option PyExpr × Nat × List PyStmt) → QState → QState
  | [], s => s
  | (ty, _, hbody) :: rest, s =>
      let s := bumpCC s
      let s := (match ty with
        | some e => { s with issues := qExpr fp e s.issues }
        | none => s)
      qHandlers fp rest (qStmts fp hbody s)
end

/-- `QualityDetector(file).visit(ast.parse(content))`'s issue list. -/
def qualityIssues (fp : String) (m : PyModule) : List DIssue :=
  (qStmts fp m.body ⟨[], none, 0⟩).issues

/-- `detect_quality_issues(file_path, content)`. -/
def detectQuality (parse : PyParser) (fp content : String) : List DIssue :=
  match parse content with
  | .ok m => qualityIssues fp m
  | .error _ => []

/-! ## Scan orchestration (`src/scanner/core/scanner.py`, `src/main.py`)

A scan works over the enumerated file list (path plus content);
enumeration itself (`rglob`, exclusions) stays outside the model. -/

structure SrcFile where
  path : String
  content : String

/-- Characters of the final path component (`pathlib.PurePath.name`). -/
def pathName (p : String) : List Char :=
  p.data.foldl (fun acc c => if c = '/' then [] else acc ++ [c]) []

def rfindAux (cs : List Char) (c : Char) (i : Nat) (best : Option Nat) : Option Nat :=
  match cs with
  | [] => best
  | d :: rest => rfindAux rest c (i + 1) (if d = c then some i else best)

/-- `pathlib.PurePath.suffix`: the part of the name from its last dot,
empty when that dot is the name's first or last character. -/
def pathSuffix (p : String) : String :=
  let nm := pathName p
  match rfindAux nm '.' 0 none with
  | some i => if 0 < i ∧ i < nm.length - 1 then ⟨nm.drop i⟩ else ""
  | none => ""

/-- `CodeScanner._analyze_python_file`: parse, record one `syntax_error`
issue carrying the parser's line and message on failure; the base class
adds nothing on success. -/
def analyzePythonFile (parse : PyParser) (f : SrcFile) : List DIssue :=
  match parse f.content with
  | .ok _ => []
  | .error e => [⟨f.path, e.lineno, "syntax_error", e.msg, "critical"⟩]

/-- `CodeScanner._scan_file`: reads the file (reads cannot fail in the
model, so the `scan_error` except-branch is unreachable) and analyzes
files whose `suffix == '.py'`. -/
def scanFile (parse : PyParser) (f : SrcFile) : List DIssue :=
  if pathSuffix f.path = ".py" then analyzePythonFile parse f else []

/-- `CodeScanner.scan_directory`: the `self.results` accumulator after the
`_scan_file` loop over the enumerated files. -/
def scannerResults (parse : PyParser) (files : List SrcFile) : List DIssue :=
  files.foldl (fun acc f => acc ++ scanFile parse f) []

/-- `BugFixingAssistant.scan_directory` (`src/main.py`): the base scan
over all enumerated files first, then — re-enumerating the same list —
the three detectors per file, `results.extend`-ed in registration order
(pattern, security, quality). -/
def scanDirectory (parse : PyParser) (files : List SrcFile) : List DIssue :=
  let results := scannerResults parse files
  files.foldl (fun acc f =>
    acc ++ detectPatterns parse f.path f.content
        ++ detectSecurity parse f.path f.content
        ++ detectQuality parse f.path f.content) results

/-! ## Fixer data model (`Issue`/`Fix`/`Change` dictionaries)

The fixer reads issues and fixes as plain dictionaries via `.get`, so
every field is optional here; `none` means the key is absent. -/

structure FIssue where
  file : Option String
  line : Option Int
  type : Option String
  message : Option String
  severity : Option String
deriving DecidableEq, Repr

structure Change where
  lineNumber : Option Int
  oldCode : Option String
  newCode : Option String
deriving DecidableEq, Repr

structure Fix where
  issue : Option FIssue
  fixType : Option String
  description : Option String
  suggestion : Option String
  changes : Option (List Change)
  automated : Option Bool
deriving DecidableEq, Repr

/-- `fix.get("issue", {})`: a missing issue behaves as an empty dict. -/
def Fix.issueD (f : Fix) : FIssue :=
  f.issue.getD ⟨none, none, none, none, none⟩

/-- `fix.get("changes", [])`. -/
def Fix.changesD (f : Fix) : List Change :=
  f.changes.getD []

/-- `fix.get("suggestion", "")`. -/
def Fix.suggestionD (f : Fix) : String :=
  f.suggestion.getD ""

/-! ## Fix validator (`src/fixer/validators/fix_validator.py`) -/

structure ValidationResult where
  valid : Bool
  message : String
  line : Option Nat
  offset : Option Nat
deriving DecidableEq, Repr

/-- `FixValidator.validate_syntax(code, language)`. -/
def validateSyntax (parse : PyParser) (code : String)
    (language : String := "python") : ValidationResult :=
  if language = "python" then
    match parse code with
    | .ok _ => ⟨true, "Syntax is valid", none, none⟩
    | .error e =>
        ⟨false, "Syntax error: " ++ e.msg ++ " at line " ++ natToDec e.lineno,
          some e.lineno, some e.offset⟩
  else ⟨false, "Unsupported language: " ++ language, none, none⟩

structure FixCheckResult where
  valid : Bool
  message : String
  details : Option ValidationResult
deriving DecidableEq, Repr

/-- `FixValidator.validate_fix(original_code, fixed_code)`: only the fixed
code is re-parsed; `original_code` is never consulted. -/
def validateFix (parse : PyParser) (originalCode fixedCode : String) : FixCheckResult :=
  let _ := originalCode
  let syntaxResult := validateSyntax parse fixedCode
  if !syntaxResult.valid then
    ⟨false, "Fix introduces syntax errors", some syntaxResult⟩
  else
    ⟨true, "Fix is valid", none⟩

/-! ## Fix generator (`src/fixer/generators/fix_generator.py`) -/

/-- `FixGenerator.generate_fix(issue)`: a four-way dispatch on
`issue.get('type')`; every other type returns `None`. -/
def generateFix (issue : FIssue) : Option Fix :=
  if issue.type = some "none_comparison" then
    some ⟨some issue, some "replace", some "Replace == None with is None",
      some "Replace \"== None\" with \"is None\" or \"!= None\" with \"is not None\"",
      none, some false⟩
  else if issue.type = some "bare_except" then
    some ⟨some issue, some "replace", some "Specify exception type in except clause",
      some "Replace \"except:\" with \"except Exception:\" or more specific exception",
      none, some false⟩
  else if issue.type = some "dangerous_eval" then
    some ⟨some issue, some "refactor", some "Remove eval() and use safer alternative",
      some "Consider using ast.literal_eval() for literals or json.loads() for JSON",
      none, some false⟩
  else if issue.type = some "wildcard_import" then
    some ⟨some issue, some "replace", some "Replace wildcard import with explicit imports",
      some "Import only the specific names you need",
      none, some false⟩
  else
    none

/-! ## difflib: `SequenceMatcher(None, a, b)`

Embedding of the CPython `difflib` machinery that
`FixApplicator._generate_diff` relies on, at the configuration the source
uses: `isjunk=None` (so `self.bjunk` is empty and the two junk-extension
`while` loops of `find_longest_match` never fire — their guards test
membership in the empty junk set) and `autojunk=True` (so for `len(b) >=
200`, "popular" elements are deleted from `b2j`).  Loops become
recursions; the two surviving extension `while` loops carry explicit fuel
for which the stated amount is exact (the backward loop decrements
`besti` each step, the forward loop is bounded by `ahi`). -/

def countIn (b : List String) (x : String) : Nat :=
  (b.filter (fun y => y == x)).length

/-- autojunk popularity: `len(b) >= 200` and more than `len(b)//100 + 1`
occurrences. -/
def isPopular (b : List String) (x : String) : Bool :=
  decide (200 ≤ b.length) && decide (b.length / 100 + 1 < countIn b x)

/-- `self.b2j.get(x, [])`: the ascending list of indices `j` with
`b[j] == x`; popular entries are deleted from the dict. -/
def b2j (b : List String) (x : String) : List Nat :=
  if isPopular b x then []
  else (List.range b.length).filter (fun j => b.getD j "" == x)

structure FlmBest where
  besti : Nat
  bestj : Nat
  bestsize : Nat
deriving DecidableEq, Repr

/-- The inner `for j in b2j.get(a[i], nothing)` loop of
`find_longest_match`.  `prevJ2` is `j2len` from the previous `i`
iteration (lookups via `j2lenget(j-1, 0)`), `newJ2` the dict being built,
both total maps with default `0`.  On the ascending index list, the
`continue` below `blo` skips one element and the `break` at `bhi`
discards the rest. -/
def flmInner (blo bhi i : Nat) (prevJ2 : Nat → Nat) :
    List Nat → (Nat → Nat) → FlmBest → (Nat → Nat) × FlmBest
  | [], newJ2, best => (newJ2, best)
  | j :: js, newJ2, best =>
    if j < blo then flmInner blo bhi i prevJ2 js newJ2 best
    else if bhi ≤ j then (newJ2, best)
    else
      let k := (if j = 0 then 0 else prevJ2 (j - 1)) + 1
      let newJ2 := fun j2 => if j2 = j then k else newJ2 j2
      let best := if best.bestsize < k then ⟨i + 1 - k, j + 1 - k, k⟩ else best
      flmInner blo bhi i prevJ2 js newJ2 best

/-- The outer `for i in range(alo, ahi)` loop: each iteration starts a
fresh `newj2len` and installs it as `j2len` afterwards. -/
def flmOuter (a b : List String) (blo bhi : Nat) :
    List Nat → (Nat → Nat) → FlmBest → FlmBest
  | [], _, best => best
  | i :: rest, j2len, best =>
    let r := flmInner blo bhi i j2len (b2j b (a.getD i "")) (fun _ => 0) best
    flmOuter a b blo bhi rest r.1 r.2

/-- First extension loop: extend the best match backwards over equal
elements (the `not isbjunk(...)` conjunct is vacuous with no junk). -/
def extendBack (a b : List String) (alo blo : Nat) : Nat → FlmBest → FlmBest
  | 0, m => m
  | fuel + 1, m =>
    if alo < m.besti ∧ blo < m.bestj ∧
        a.getD (m.besti - 1) "" == b.getD (m.bestj - 1) "" then
      extendBack a b alo blo fuel ⟨m.besti - 1, m.bestj - 1, m.bestsize + 1⟩
    else m

/-- Second extension loop: extend forwards over equal elements. -/
def extendFwd (a b : List String) (ahi bhi : Nat) : Nat → FlmBest → FlmBest
  | 0, m => m
  | fuel + 1, m =>
    if m.besti + m.bestsize < ahi ∧ m.bestj + m.bestsize < bhi ∧
        a.getD (m.besti + m.bestsize) "" == b.getD (m.bestj + m.bestsize) "" then
      extendFwd a b ahi bhi fuel ⟨m.besti, m.bestj, m.bestsize + 1⟩
    else m

/-- `find_longest_match(alo, ahi, blo, bhi)` at the `isjunk=None`
configuration: dynamic programming pass, then the two (non-junk)
extension loops; the junk extension loops are dead code here. -/
def findLongestMatch (a b : List String) (alo ahi blo bhi : Nat) : FlmBest :=
  let best := flmOuter a b blo bhi (List.range' alo (ahi - alo)) (fun _ => 0)
    ⟨alo, blo, 0⟩
  let best := extendBack a b alo blo best.besti best
  extendFwd a b ahi bhi ahi best

/-- `a[s+u] == b[t+u]` for all `u < k`: the two segments match. -/
def MatchSeg (a b : List String) (s t k : Nat) : Prop :=
  ∀ u, u < k → a.getD (s + u) "" = b.getD (t + u) ""

/-- Validity of a candidate best match for region
`(alo, bound) × (blo, bhi)`: either still the initial sentinel
`(alo, blo, 0)`, or an in-bounds matching block. -/
def BestAt (a b : List String) (alo blo bhi bound : Nat) (m : FlmBest) : Prop :=
  (m.bestsize = 0 ∧ m.besti = alo ∧ m.bestj = blo) ∨
  (alo ≤ m.besti ∧ blo ≤ m.bestj ∧ m.besti + m.bestsize ≤ bound ∧
    m.bestj + m.bestsize ≤ bhi ∧ MatchSeg a b m.besti m.bestj m.bestsize)

/-- Validity of a `j2len` map whose chains end just before row `i1`:
a nonzero entry `k` at key `j` is a match of length `k` ending at
`(i1 - 1, j)`, starting inside the region. -/
def J2At (a b : List String) (alo blo : Nat) (i1 : Nat) (mp : Nat → Nat) : Prop :=
  ∀ j, mp j ≠ 0 → ∃ s t, s + mp j = i1 ∧ t + mp j = j + 1 ∧ alo ≤ s ∧ blo ≤ t ∧
    MatchSeg a b s t (mp j)

theorem bestAt_mono (a b : List String) (alo blo bhi : Nat) {bound bound2 : Nat}
    (h : bound ≤ bound2) (m : FlmBest) (hm : BestAt a b alo blo bhi bound m) :
    BestAt a b alo blo bhi bound2 m := by
  rcases hm with h0 | ⟨h1, h2, h3, h4, h5⟩
  · exact Or.inl h0
  · exact Or.inr ⟨h1, h2, le_trans h3 h, h4, h5⟩

theorem flmInner_valid (a b : List String) (alo blo bhi i : Nat)
    (prevJ2 : Nat → Nat) (halo : alo ≤ i) (hprev : J2At a b alo blo i prevJ2) :
    ∀ (js : List Nat) (newJ2 : Nat → Nat) (best : FlmBest),
      (∀ j ∈ js, b.getD j "" = a.getD i "") →
      J2At a b alo blo (i + 1) newJ2 →
      BestAt a b alo blo bhi (i + 1) best →
      J2At a b alo blo (i + 1) (flmInner blo bhi i prevJ2 js newJ2 best).1 ∧
      BestAt a b alo blo bhi (i + 1) (flmInner blo bhi i prevJ2 js newJ2 best).2 := by
  intro js
  induction js with
  | nil =>
      intro newJ2 best _ hnew hbest
      exact ⟨hnew, hbest⟩
  | cons j js ih =>
      intro newJ2 best hjs hnew hbest
      rw [flmInner]
      by_cases hlo : j < blo
      · rw [if_pos hlo]
        exact ih newJ2 best (fun x hx => hjs x (List.mem_cons_of_mem _ hx)) hnew hbest
      · rw [if_neg hlo]
        by_cases hhi : bhi ≤ j
        · rw [if_pos hhi]
          exact ⟨hnew, hbest⟩
        · rw [if_neg hhi]
          simp only []
          -- the new chain ending at (i, j)
          have hmatch : b.getD j "" = a.getD i "" := hjs j (List.mem_cons_self j js)
          have hseg : ∃ s t,
              s + ((if j = 0 then 0 else prevJ2 (j - 1)) + 1) = i + 1 ∧
              t + ((if j = 0 then 0 else prevJ2 (j - 1)) + 1) = j + 1 ∧
              alo ≤ s ∧ blo ≤ t ∧
              MatchSeg a b s t ((if j = 0 then 0 else prevJ2 (j - 1)) + 1) := by
            by_cases hj0 : j = 0
            · refine ⟨i, 0, by simp [hj0], by simp [hj0], halo, by omega, ?_⟩
              intro u hu
              simp only [if_pos hj0] at hu
              interval_cases u
              simpa [hj0] using hmatch.symm
            · by_cases hk0 : prevJ2 (j - 1) = 0
              · refine ⟨i, j, by simp [hj0, hk0], by simp [hj0, hk0], halo,
                  by omega, ?_⟩
                intro u hu
                simp only [if_neg hj0, hk0] at hu
                interval_cases u
                simpa using hmatch.symm
              · obtain ⟨s, t, hs, ht, hsa, htb, hm⟩ := hprev (j - 1) hk0
                refine ⟨s, t, by simp only [if_neg hj0]; omega,
                  by simp only [if_neg hj0]; omega, hsa, htb, ?_⟩
                intro u hu
                simp only [if_neg hj0] at hu
                by_cases hu2 : u < prevJ2 (j - 1)
                · exact hm u hu2
                · have : u = prevJ2 (j - 1) := by omega
                  subst this
                  have h1 : s + prevJ2 (j - 1) = i := hs
                  have h2 : t + prevJ2 (j - 1) = j := by omega
                  rw [h1, h2]
                  exact hmatch.symm
          apply ih
          · exact fun x hx => hjs x (List.mem_cons_of_mem _ hx)
          · -- updated map
            intro j2 hj2
            by_cases hjj : j2 = j
            · subst hjj
              simpa using hseg
            · simp only [if_neg hjj] at hj2 ⊢
              exact hnew j2 hj2
          · -- updated best
            by_cases hlt : best.bestsize < (if j = 0 then 0 else prevJ2 (j - 1)) + 1
            · rw [if_pos hlt]
              obtain ⟨s, t, hs, ht, hsa, htb, hm⟩ := hseg
              right
              have hsi : i + 1 - ((if j = 0 then 0 else prevJ2 (j - 1)) + 1) = s := by
                omega
              have htj : j + 1 - ((if j = 0 then 0 else prevJ2 (j - 1)) + 1) = t := by
                omega
              refine ⟨?_, ?_, ?_, ?_, ?_⟩ <;> simp only [hsi, htj]
              · exact hsa
              · exact htb
              · omega
              · omega
              · exact hm
            · rw [if_neg hlt]
              exact hbest

theorem flmOuter_valid (a b : List String) (alo blo bhi : Nat) :
    ∀ (n i0 : Nat) (j2len : Nat → Nat) (best : FlmBest), alo ≤ i0 →
      J2At a b alo blo i0 j2len →
      BestAt a b alo blo bhi i0 best →
      BestAt a b alo blo bhi (i0 + n)
        (flmOuter a b blo bhi (List.range' i0 n) j2len best) := by
  intro n
  induction n with
  | zero =>
      intro i0 j2len best _ _ hbest
      simpa [flmOuter] using hbest
  | succ n ih =>
      intro i0 j2len best halo hj2 hbest
      rw [List.range'_succ, flmOuter]
      have hinner := flmInner_valid a b alo blo bhi i0 j2len halo hj2
        (b2j b (a.getD i0 "")) (fun _ => 0) best ?_ ?_ ?_
      · have := ih (i0 + 1) _ _ (by omega) hinner.1 hinner.2
        have harith : i0 + 1 + n = i0 + (n + 1) := by omega
        rwa [harith] at this
      · intro j hj
        rw [b2j] at hj
        split_ifs at hj with hpop
        · simp at hj
        · rw [List.mem_filter] at hj
          exact eq_of_beq hj.2
      · intro j hj
        simp at hj
      · exact bestAt_mono a b alo blo bhi (by omega) best hbest

theorem extendBack_valid (a b : List String) (alo blo bhi bound : Nat) :
    ∀ (fuel : Nat) (m : FlmBest), BestAt a b alo blo bhi bound m →
      BestAt a b alo blo bhi bound (extendBack a b alo blo fuel m) := by
  intro fuel
  induction fuel with
  | zero => intro m hm; exact hm
  | succ fuel ih =>
      intro m hm
      rw [extendBack]
      by_cases hg : alo < m.besti ∧ blo < m.bestj ∧
          a.getD (m.besti - 1) "" == b.getD (m.bestj - 1) ""
      · rw [if_pos hg]
        apply ih
        obtain ⟨hg1, hg2, hg3⟩ := hg
        rcases hm with ⟨hs0, hia, hjb⟩ | ⟨h1, h2, h3, h4, h5⟩
        · omega
        · right
          refine ⟨?_, ?_, ?_, ?_, ?_⟩
          · show alo ≤ m.besti - 1
            omega
          · show blo ≤ m.bestj - 1
            omega
          · show m.besti - 1 + (m.bestsize + 1) ≤ bound
            omega
          · show m.bestj - 1 + (m.bestsize + 1) ≤ bhi
            omega
          intro u hu
          cases u with
          | zero =>
              simpa using eq_of_beq hg3
          | succ u =>
              show a.getD (m.besti - 1 + (u + 1)) "" = b.getD (m.bestj - 1 + (u + 1)) ""
              have e1 : m.besti - 1 + (u + 1) = m.besti + u := by omega
              have e2 : m.bestj - 1 + (u + 1) = m.bestj + u := by omega
              rw [e1, e2]
              have hu2 : u < m.bestsize := by
                simpa using hu
              exact h5 u hu2
      · rw [if_neg hg]
        exact hm

theorem extendFwd_valid (a b : List String) (alo blo bhi ahi : Nat) :
    ∀ (fuel : Nat) (m : FlmBest), BestAt a b alo blo bhi ahi m →
      BestAt a b alo blo bhi ahi (extendFwd a b ahi bhi fuel m) := by
  intro fuel
  induction fuel with
  | zero => intro m hm; exact hm
  | succ fuel ih =>
      intro m hm
      rw [extendFwd]
      by_cases hg : m.besti + m.bestsize < ahi ∧ m.bestj + m.bestsize < bhi ∧
          a.getD (m.besti + m.bestsize) "" == b.getD (m.bestj + m.bestsize) ""
      · rw [if_pos hg]
        apply ih
        obtain ⟨hg1, hg2, hg3⟩ := hg
        have hcore : alo ≤ m.besti ∧ blo ≤ m.bestj ∧
            MatchSeg a b m.besti m.bestj m.bestsize := by
          rcases hm with ⟨h0, h1, h2⟩ | ⟨h1, h2, _, _, h5⟩
          · refine ⟨by omega, by omega, ?_⟩
            intro u hu
            omega
          · exact ⟨h1, h2, h5⟩
        right
        refine ⟨hcore.1, hcore.2.1, ?_, ?_, ?_⟩
        · show m.besti + (m.bestsize + 1) ≤ ahi
          omega
        · show m.bestj + (m.bestsize + 1) ≤ bhi
          omega
        intro u hu
        have hu1 : u < m.bestsize + 1 := by simpa using hu
        show a.getD (m.besti + u) "" = b.getD (m.bestj + u) ""
        by_cases hu2 : u < m.bestsize
        · exact hcore.2.2 u hu2
        · have : u = m.bestsize := by omega
          subst this
          exact eq_of_beq hg3
      · rw [if_neg hg]
        exact hm

theorem flmInner_deg (blo bhi i : Nat) (prevJ2 : Nat → Nat) (hdeg : bhi ≤ blo) :
    ∀ (js : List Nat) (newJ2 : Nat → Nat) (best : FlmBest),
      flmInner blo bhi i prevJ2 js newJ2 best = (newJ2, best) := by
  intro js
  induction js with
  | nil => intro newJ2 best; rw [flmInner]
  | cons j js ih =>
      intro newJ2 best
      rw [flmInner]
      by_cases hlo : j < blo
      · rw [if_pos hlo]; exact ih newJ2 best
      · rw [if_neg hlo, if_pos (by omega)]

theorem flmOuter_deg (a b : List String) (blo bhi : Nat) (hdeg : bhi ≤ blo) :
    ∀ (is0 : List Nat) (j2len : Nat → Nat) (best : FlmBest),
      flmOuter a b blo bhi is0 j2len best = best := by
  intro is0
  induction is0 with
  | nil => intro j2len best; rw [flmOuter]
  | cons i is0 ih =>
      intro j2len best
      rw [flmOuter, flmInner_deg blo bhi i j2len hdeg]
      exact ih _ _

theorem extendBack_sentinel (a b : List String) (alo blo : Nat) :
    ∀ fuel, extendBack a b alo blo fuel ⟨alo, blo, 0⟩ = ⟨alo, blo, 0⟩ := by
  intro fuel
  cases fuel with
  | zero => rw [extendBack]
  | succ fuel => rw [extendBack, if_neg (by simp)]

theorem extendFwd_sentinel (a b : List String) (ahi bhi alo blo : Nat)
    (hdeg : ¬(alo ≤ ahi ∧ blo ≤ bhi)) :
    ∀ fuel, extendFwd a b ahi bhi fuel ⟨alo, blo, 0⟩ = ⟨alo, blo, 0⟩ := by
  intro fuel
  cases fuel with
  | zero => rw [extendFwd]
  | succ fuel => rw [extendFwd, if_neg (by simp only []; omega)]

/-- `find_longest_match` returns a valid in-bounds matching block (or the
zero-size sentinel at `(alo, blo)`). -/
theorem flm_valid (a b : List String) (alo ahi blo bhi : Nat) :
    BestAt a b alo blo bhi ahi (findLongestMatch a b alo ahi blo bhi) := by
  rw [findLongestMatch]
  by_cases hreg : alo ≤ ahi ∧ blo ≤ bhi
  · have houter := flmOuter_valid a b alo blo bhi (ahi - alo) alo (fun _ => 0)
      ⟨alo, blo, 0⟩ (le_refl _) (by intro j hj; simp at hj) (Or.inl ⟨rfl, rfl, rfl⟩)
    have harith : alo + (ahi - alo) = ahi := by omega
    rw [harith] at houter
    exact extendFwd_valid a b alo blo bhi ahi _ _
      (extendBack_valid a b alo blo bhi ahi _ _ houter)
  · -- degenerate region: either the row range is empty (`ahi ≤ alo`) or
    -- every column index hits the `break` (`bhi ≤ blo`), so the sentinel
    -- survives the whole computation.
    by_cases hab : bhi ≤ blo
    · rw [flmOuter_deg a b blo bhi hab]
      simp only
      rw [extendBack_sentinel, extendFwd_sentinel a b ahi bhi alo blo hreg]
      exact Or.inl ⟨rfl, rfl, rfl⟩
    · have hai : ahi < alo := by omega
      have hrange : ahi - alo = 0 := by omega
      rw [hrange]
      simp only [List.range'_zero]
      rw [flmOuter]
      simp only
      rw [extendBack_sentinel, extendFwd_sentinel a b ahi bhi alo blo hreg]
      exact Or.inl ⟨rfl, rfl, rfl⟩

/-! ## difflib: `get_matching_blocks`

The source keeps a work-list (`queue`) of regions, popping from the end
of a Python list and pushing the left sub-region before the right one; we
keep the same stack with its top at the head.  The loop gets explicit
fuel; one region is consumed per step and `queueWeight` (which strictly
drops each step) plus one is always enough. -/

structure Region where
  ralo : Nat
  rahi : Nat
  rblo : Nat
  rbhi : Nat
deriving DecidableEq, Repr

/-- `Match(a=..., b=..., size=...)`, the namedtuple of matching blocks. -/
structure MBlock where
  ai : Nat
  bj : Nat
  size : Nat
deriving DecidableEq, Repr

def regionWeight (r : Region) : Nat := (r.rahi - r.ralo) + (r.rbhi - r.rblo) + 1

def queueWeight (q : List Region) : Nat := (q.map regionWeight).sum

/-- The `while queue:` loop of `get_matching_blocks`. -/
def mbQueueGo (a b : List String) : Nat → List Region → List MBlock → List MBlock
  | 0, _, acc => acc
  | _ + 1, [], acc => acc
  | fuel + 1, r :: queue, acc =>
    let m := findLongestMatch a b r.ralo r.rahi r.rblo r.rbhi
    if m.bestsize = 0 then mbQueueGo a b fuel queue acc
    else
      let acc2 := acc ++ [⟨m.besti, m.bestj, m.bestsize⟩]
      let queue2 := if r.ralo < m.besti ∧ r.rblo < m.bestj then
          ⟨r.ralo, m.besti, r.rblo, m.bestj⟩ :: queue else queue
      let queue3 := if m.besti + m.bestsize < r.rahi ∧ m.bestj + m.bestsize < r.rbhi then
          ⟨m.besti + m.bestsize, r.rahi, m.bestj + m.bestsize, r.rbhi⟩ :: queue2 else queue2
      mbQueueGo a b fuel queue3 acc2

/-- The unsorted `matching_blocks` list collected by the queue loop. -/
def getMatchingBlocksRaw (a b : List String) : List MBlock :=
  mbQueueGo a b (queueWeight [⟨0, a.length, 0, b.length⟩] + 1)
    [⟨0, a.length, 0, b.length⟩] []

/-- A stable sort (insertion from the right): the kernel-evaluable stand-in
for Python's stable `sort`/`sorted`. -/
def insertIn {α : Type} (le : α → α → Bool) (x : α) : List α → List α
  | [] => [x]
  | y :: ys => if le x y then x :: y :: ys else y :: insertIn le x ys

def sortList {α : Type} (le : α → α → Bool) (l : List α) : List α :=
  l.foldr (insertIn le) []

theorem insertIn_perm {α : Type} (le : α → α → Bool) (x : α) :
    ∀ l : List α, List.Perm (insertIn le x l) (x :: l) := by
  intro l
  induction l with
  | nil => exact List.Perm.refl _
  | cons y ys ih =>
      rw [insertIn]
      by_cases h : le x y = true
      · rw [if_pos h]
      · rw [if_neg h]
        exact (List.Perm.cons y ih).trans (List.Perm.swap x y ys)

theorem sortList_perm {α : Type} (le : α → α → Bool) :
    ∀ l : List α, List.Perm (sortList le l) l := by
  intro l
  induction l with
  | nil => exact List.Perm.refl _
  | cons x xs ih =>
      exact (insertIn_perm le x (sortList le xs)).trans (List.Perm.cons x ih)

theorem insertIn_pairwise {α : Type} (le : α → α → Bool)
    (htrans : ∀ a b c, le a b = true → le b c = true → le a c = true)
    (htotal : ∀ a b, (le a b || le b a) = true) (x : α) :
    ∀ l, List.Pairwise (fun a b => le a b = true) l →
      List.Pairwise (fun a b => le a b = true) (insertIn le x l) := by
  intro l
  induction l with
  | nil =>
      intro _
      simp [insertIn]
  | cons y ys ih =>
      intro hp
      obtain ⟨hy, hys⟩ := List.pairwise_cons.mp hp
      rw [insertIn]
      by_cases h : le x y = true
      · rw [if_pos h]
        refine List.pairwise_cons.mpr ⟨?_, hp⟩
        intro z hz
        rcases List.mem_cons.mp hz with rfl | hz2
        · exact h
        · exact htrans x y z h (hy z hz2)
      · rw [if_neg h]
        have hb : le x y = false := Bool.not_eq_true _ |>.mp h
        have hyx : le y x = true := by
          have ht := htotal x y
          rw [hb] at ht
          simpa using ht
        refine List.pairwise_cons.mpr ⟨?_, ih hys⟩
        intro z hz
        have hz2 : z ∈ x :: ys := (insertIn_perm le x ys).mem_iff.mp hz
        rcases List.mem_cons.mp hz2 with rfl | hz3
        · exact hyx
        · exact hy z hz3

theorem sortList_pairwise {α : Type} (le : α → α → Bool)
    (htrans : ∀ a b c, le a b = true → le b c = true → le a c = true)
    (htotal : ∀ a b, (le a b || le b a) = true) :
    ∀ l : List α, List.Pairwise (fun a b => le a b = true) (sortList le l) := by
  intro l
  induction l with
  | nil => exact List.Pairwise.nil
  | cons x xs ih => exact insertIn_pairwise le htrans htotal x _ ih

/-- `matching_blocks.sort()`: Python's stable sort under tuple
(lexicographic) comparison. -/
def blockLe (x y : MBlock) : Bool :=
  decide (x.ai < y.ai ∨ (x.ai = y.ai ∧ (x.bj < y.bj ∨ (x.bj = y.bj ∧ x.size ≤ y.size))))

def sortedBlocks (a b : List String) : List MBlock :=
  sortList blockLe (getMatchingBlocksRaw a b)

/-- The adjacent-block collapsing loop (`i1 = j1 = k1 = 0; non_adjacent =
[] ...`): `cur` is the pending `(i1, j1, k1)`. -/
def collapseAdj : MBlock → List MBlock → List MBlock
  | cur, [] => if cur.size ≠ 0 then [cur] else []
  | cur, blk :: rest =>
    if cur.ai + cur.size = blk.ai ∧ cur.bj + cur.size = blk.bj then
      collapseAdj ⟨cur.ai, cur.bj, cur.size + blk.size⟩ rest
    else
      (if cur.size ≠ 0 then [cur] else []) ++ collapseAdj blk rest

/-- `get_matching_blocks()`: sorted, collapsed, with the terminating dummy
`(len(a), len(b), 0)`. -/
def getMatchingBlocks (a b : List String) : List MBlock :=
  collapseAdj ⟨0, 0, 0⟩ (sortedBlocks a b) ++ [⟨a.length, b.length, 0⟩]

/-! ### Validity of the matching blocks -/

def MBlock.zone (blk : MBlock) : Region :=
  ⟨blk.ai, blk.ai + blk.size, blk.bj, blk.bj + blk.size⟩

/-- Two zones do not cross: one lies entirely before the other in both
coordinates. -/
def NCZone (z w : Region) : Prop :=
  (z.rahi ≤ w.ralo ∧ z.rbhi ≤ w.rblo) ∨ (w.rahi ≤ z.ralo ∧ w.rbhi ≤ z.rblo)

def SubZone (z w : Region) : Prop :=
  w.ralo ≤ z.ralo ∧ z.rahi ≤ w.rahi ∧ w.rblo ≤ z.rblo ∧ z.rbhi ≤ w.rbhi

theorem NCZone.symm {z w : Region} (h : NCZone z w) : NCZone w z := by
  rcases h with h | h
  · exact Or.inr h
  · exact Or.inl h

theorem NCZone.of_sub {x z w : Region} (hsub : SubZone z w) (h : NCZone x w) :
    NCZone x z := by
  obtain ⟨h1, h2, h3, h4⟩ := hsub
  rcases h with h | h
  · exact Or.inl ⟨by omega, by omega⟩
  · exact Or.inr ⟨by omega, by omega⟩

def ValidBlk (a b : List String) (blk : MBlock) : Prop :=
  1 ≤ blk.size ∧ blk.ai + blk.size ≤ a.length ∧ blk.bj + blk.size ≤ b.length ∧
    MatchSeg a b blk.ai blk.bj blk.size

/-- Loop invariant of `mbQueueGo`. -/
def MBInv (a b : List String) (queue : List Region) (acc : List MBlock) : Prop :=
  (∀ r ∈ queue, r.rahi ≤ a.length ∧ r.rbhi ≤ b.length) ∧
  (∀ blk ∈ acc, ValidBlk a b blk) ∧
  List.Pairwise NCZone (acc.map MBlock.zone) ∧
  (∀ blk ∈ acc, ∀ r ∈ queue, NCZone (MBlock.zone blk) r) ∧
  List.Pairwise NCZone queue

theorem queueWeight_cons (r : Region) (q : List Region) :
    queueWeight (r :: q) = regionWeight r + queueWeight q := by
  simp [queueWeight]

theorem weight_pushL (r : Region) (m : FlmBest) (hb1 : r.ralo ≤ m.besti)
    (hb2 : r.rblo ≤ m.bestj) (hb3 : m.besti + m.bestsize ≤ r.rahi)
    (hb4 : m.bestj + m.bestsize ≤ r.rbhi) (h1 : 1 ≤ m.bestsize) :
    regionWeight ⟨r.ralo, m.besti, r.rblo, m.bestj⟩ + 1 ≤ regionWeight r := by
  simp only [regionWeight]
  omega

theorem weight_pushR (r : Region) (m : FlmBest) (hb1 : r.ralo ≤ m.besti)
    (hb2 : r.rblo ≤ m.bestj) (hb3 : m.besti + m.bestsize ≤ r.rahi)
    (hb4 : m.bestj + m.bestsize ≤ r.rbhi) (h1 : 1 ≤ m.bestsize) :
    regionWeight ⟨m.besti + m.bestsize, r.rahi, m.bestj + m.bestsize, r.rbhi⟩ + 1 ≤
      regionWeight r := by
  simp only [regionWeight]
  omega

theorem weight_push2 (r : Region) (m : FlmBest) (hb1 : r.ralo ≤ m.besti)
    (hb2 : r.rblo ≤ m.bestj) (hb3 : m.besti + m.bestsize ≤ r.rahi)
    (hb4 : m.bestj + m.bestsize ≤ r.rbhi) (h1 : 1 ≤ m.bestsize) :
    regionWeight ⟨m.besti + m.bestsize, r.rahi, m.bestj + m.bestsize, r.rbhi⟩ +
    regionWeight ⟨r.ralo, m.besti, r.rblo, m.bestj⟩ + 1 ≤ regionWeight r := by
  simp only [regionWeight]
  omega

/-- One step of the queue loop preserves the invariant: the popped region
`r` is replaced by pushed sub-regions `ps` of `r`, and the found block
`nb` (also inside `r`) joins the accumulator. -/
theorem mbInv_step (a b : List String) (r : Region) (queue : List Region)
    (acc : List MBlock) (nb : MBlock) (ps : List Region)
    (hps_sub : ∀ p ∈ ps, SubZone p r)
    (hps_pw : List.Pairwise NCZone ps)
    (hps_nb : ∀ p ∈ ps, NCZone nb.zone p)
    (hnb_sub : SubZone nb.zone r)
    (hnb_valid : ValidBlk a b nb)
    (hinv : MBInv a b (r :: queue) acc) :
    MBInv a b (ps ++ queue) (acc ++ [nb]) := by
  obtain ⟨hqb, haccv, haccp, hcross, hqp⟩ := hinv
  have hrb := hqb r (List.mem_cons_self r queue)
  have hr2rest : ∀ r2 ∈ queue, NCZone r r2 := (List.pairwise_cons.mp hqp).1
  have hrest : List.Pairwise NCZone queue := (List.pairwise_cons.mp hqp).2
  refine ⟨?_, ?_, ?_, ?_, ?_⟩
  · intro x hx
    rcases List.mem_append.mp hx with hx | hx
    · have hs := hps_sub x hx
      exact ⟨by have := hs.2.1; omega, by have := hs.2.2.2; omega⟩
    · exact hqb x (List.mem_cons_of_mem r hx)
  · intro blk hblk
    rcases List.mem_append.mp hblk with hblk | hblk
    · exact haccv blk hblk
    · rw [List.mem_singleton.mp hblk]
      exact hnb_valid
  · rw [List.map_append]
    rw [List.pairwise_append]
    refine ⟨haccp, by simp, ?_⟩
    intro z hz w hw
    simp only [List.map_cons, List.map_nil, List.mem_singleton] at hw
    subst hw
    obtain ⟨blk, hblk, hbz⟩ := List.mem_map.mp hz
    subst hbz
    exact NCZone.of_sub hnb_sub (hcross blk hblk r (List.mem_cons_self r queue))
  · intro blk hblk x hx
    rcases List.mem_append.mp hblk with hblk | hblk
    · rcases List.mem_append.mp hx with hx | hx
      · exact NCZone.of_sub (hps_sub x hx)
          (hcross blk hblk r (List.mem_cons_self r queue))
      · exact hcross blk hblk x (List.mem_cons_of_mem r hx)
    · rw [List.mem_singleton.mp hblk]
      rcases List.mem_append.mp hx with hx | hx
      · exact hps_nb x hx
      · exact (NCZone.of_sub hnb_sub (hr2rest x hx).symm).symm
  · rw [List.pairwise_append]
    refine ⟨hps_pw, hrest, ?_⟩
    intro p hp q2 hq2
    exact (NCZone.of_sub (hps_sub p hp) (hr2rest q2 hq2).symm).symm

theorem zone_mk (x y k : Nat) :
    MBlock.zone ⟨x, y, k⟩ = ⟨x, x + k, y, y + k⟩ := rfl

theorem subZone_mk (alo ahi blo bhi : Nat) (r : Region)
    (h1 : r.ralo ≤ alo) (h2 : ahi ≤ r.rahi) (h3 : r.rblo ≤ blo)
    (h4 : bhi ≤ r.rbhi) : SubZone ⟨alo, ahi, blo, bhi⟩ r :=
  ⟨h1, h2, h3, h4⟩

theorem ncZone_fst (a1 a2 b1 b2 c1 c2 d1 d2 : Nat) (h1 : a2 ≤ c1) (h2 : b2 ≤ d1) :
    NCZone ⟨a1, a2, b1, b2⟩ ⟨c1, c2, d1, d2⟩ := Or.inl ⟨h1, h2⟩

theorem ncZone_snd (a1 a2 b1 b2 c1 c2 d1 d2 : Nat) (h1 : c2 ≤ a1) (h2 : d2 ≤ b1) :
    NCZone ⟨a1, a2, b1, b2⟩ ⟨c1, c2, d1, d2⟩ := Or.inr ⟨h1, h2⟩

/-- The queue loop, given enough fuel, returns valid pairwise
non-crossing blocks. -/
theorem mbQueueGo_valid (a b : List String) :
    ∀ (fuel : Nat) (queue : List Region) (acc : List MBlock),
      queueWeight queue < fuel →
      MBInv a b queue acc →
      (∀ blk ∈ mbQueueGo a b fuel queue acc, ValidBlk a b blk) ∧
      List.Pairwise NCZone ((mbQueueGo a b fuel queue acc).map MBlock.zone) := by
  intro fuel
  induction fuel with
  | zero =>
      intro queue acc hw hinv
      omega
  | succ fuel ih =>
      intro queue acc hw hinv
      match queue with
      | [] =>
          rw [mbQueueGo]
          exact ⟨hinv.2.1, hinv.2.2.1⟩
      | r :: queue =>
        rw [mbQueueGo]
        have hqb := hinv.1
        have hrb := hqb r (List.mem_cons_self r queue)
        by_cases h0 : (findLongestMatch a b r.ralo r.rahi r.rblo r.rbhi).bestsize = 0
        · rw [if_pos h0]
          apply ih
          · rw [queueWeight_cons] at hw
            have hwr : 1 ≤ regionWeight r := by
              simp [regionWeight]
            omega
          · obtain ⟨hqb2, haccv, haccp, hcross, hqp⟩ := hinv
            refine ⟨?_, haccv, haccp, ?_, ?_⟩
            · exact fun r2 h => hqb2 r2 (List.mem_cons_of_mem r h)
            · exact fun blk hb r2 h => hcross blk hb r2 (List.mem_cons_of_mem r h)
            · exact hqp.sublist (List.sublist_cons_self r queue)
        · rw [if_neg h0]
          rcases flm_valid a b r.ralo r.rahi r.rblo r.rbhi with ⟨hz, _, _⟩ |
            ⟨hb1, hb2, hb3, hb4, hb5⟩
          · exact absurd hz h0
          set m := findLongestMatch a b r.ralo r.rahi r.rblo r.rbhi with hmdef
          have hs0 : 1 ≤ m.bestsize := by omega
          have hnb_sub : SubZone (MBlock.zone ⟨m.besti, m.bestj, m.bestsize⟩) r := by
            rw [zone_mk]
            exact subZone_mk _ _ _ _ r hb1 hb3 hb2 hb4
          have hnb_valid : ValidBlk a b ⟨m.besti, m.bestj, m.bestsize⟩ := by
            refine ⟨hs0, ?_, ?_, hb5⟩
            · show m.besti + m.bestsize ≤ a.length
              omega
            · show m.bestj + m.bestsize ≤ b.length
              omega
          by_cases hpl : r.ralo < m.besti ∧ r.rblo < m.bestj
          · by_cases hpr : m.besti + m.bestsize < r.rahi ∧
                m.bestj + m.bestsize < r.rbhi
            · simp only [if_pos hpl, if_pos hpr]
              apply ih
              · rw [queueWeight_cons, queueWeight_cons]
                rw [queueWeight_cons] at hw
                have hws := weight_push2 r m hb1 hb2 hb3 hb4 hs0
                omega
              · exact mbInv_step a b r queue acc ⟨m.besti, m.bestj, m.bestsize⟩
                  [⟨m.besti + m.bestsize, r.rahi, m.bestj + m.bestsize, r.rbhi⟩,
                   ⟨r.ralo, m.besti, r.rblo, m.bestj⟩]
                  (by
                    intro p hp
                    rcases List.mem_cons.mp hp with he | hp
                    · subst he
                      exact subZone_mk _ _ _ _ r (by omega) (le_refl _)
                        (by omega) (le_refl _)
                    · rw [List.mem_singleton.mp hp]
                      exact subZone_mk _ _ _ _ r (le_refl _) (by omega)
                        (le_refl _) (by omega))
                  (by
                    refine List.pairwise_cons.mpr ⟨?_, List.pairwise_singleton _ _⟩
                    intro w hw
                    rw [List.mem_singleton.mp hw]
                    exact ncZone_snd _ _ _ _ _ _ _ _ (by omega) (by omega))
                  (by
                    intro p hp
                    rcases List.mem_cons.mp hp with he | hp
                    · subst he
                      rw [zone_mk]
                      exact ncZone_fst _ _ _ _ _ _ _ _ (le_refl _) (le_refl _)
                    · rw [List.mem_singleton.mp hp, zone_mk]
                      exact ncZone_snd _ _ _ _ _ _ _ _ (le_refl _) (le_refl _))
                  hnb_sub hnb_valid hinv
            · simp only [if_pos hpl, if_neg hpr]
              apply ih
              · rw [queueWeight_cons]
                rw [queueWeight_cons] at hw
                have hws := weight_pushL r m hb1 hb2 hb3 hb4 hs0
                omega
              · exact mbInv_step a b r queue acc ⟨m.besti, m.bestj, m.bestsize⟩
                  [⟨r.ralo, m.besti, r.rblo, m.bestj⟩]
                  (by
                    intro p hp
                    rw [List.mem_singleton.mp hp]
                    exact subZone_mk _ _ _ _ r (le_refl _) (by omega)
                      (le_refl _) (by omega))
                  (List.pairwise_singleton _ _)
                  (by
                    intro p hp
                    rw [List.mem_singleton.mp hp, zone_mk]
                    exact ncZone_snd _ _ _ _ _ _ _ _ (le_refl _) (le_refl _))
                  hnb_sub hnb_valid hinv
          · by_cases hpr : m.besti + m.bestsize < r.rahi ∧
                m.bestj + m.bestsize < r.rbhi
            · simp only [if_neg hpl, if_pos hpr]
              apply ih
              · rw [queueWeight_cons]
                rw [queueWeight_cons] at hw
                have hws := weight_pushR r m hb1 hb2 hb3 hb4 hs0
                omega
              · exact mbInv_step a b r queue acc ⟨m.besti, m.bestj, m.bestsize⟩
                  [⟨m.besti + m.bestsize, r.rahi, m.bestj + m.bestsize, r.rbhi⟩]
                  (by
                    intro p hp
                    rw [List.mem_singleton.mp hp]
                    exact subZone_mk _ _ _ _ r (by omega) (le_refl _)
                      (by omega) (le_refl _))
                  (List.pairwise_singleton _ _)
                  (by
                    intro p hp
                    rw [List.mem_singleton.mp hp, zone_mk]
                    exact ncZone_fst _ _ _ _ _ _ _ _ (le_refl _) (le_refl _))
                  hnb_sub hnb_valid hinv
            · simp only [if_neg hpl, if_neg hpr]
              apply ih
              · rw [queueWeight_cons] at hw
                have hwr1 : 1 ≤ regionWeight r := by
                  simp [regionWeight]
                omega
              · exact mbInv_step a b r queue acc ⟨m.besti, m.bestj, m.bestsize⟩ []
                  (by intro p hp; simp at hp)
                  List.Pairwise.nil
                  (by intro p hp; simp at hp)
                  hnb_sub hnb_valid hinv

/-- The raw (unsorted) matching blocks are valid and pairwise
non-crossing. -/
theorem getMatchingBlocksRaw_valid (a b : List String) :
    (∀ blk ∈ getMatchingBlocksRaw a b, ValidBlk a b blk) ∧
    List.Pairwise NCZone ((getMatchingBlocksRaw a b).map MBlock.zone) := by
  apply mbQueueGo_valid
  · omega
  · refine ⟨?_, ?_, ?_, ?_, ?_⟩
    · intro r hr
      rw [List.mem_singleton.mp hr]
      exact ⟨le_refl _, le_refl _⟩
    · intro blk hblk
      simp at hblk
    · simp
    · intro blk hblk
      simp at hblk
    · exact List.pairwise_singleton _ _

/-! ### From sorted blocks to a monotone chain -/

/-- `x` lies strictly before `y` in both coordinates. -/
def StepLe (x y : MBlock) : Prop :=
  x.ai + x.size ≤ y.ai ∧ x.bj + x.size ≤ y.bj

theorem blockLe_trans (x y z : MBlock) (h1 : blockLe x y = true)
    (h2 : blockLe y z = true) : blockLe x z = true := by
  simp only [blockLe, decide_eq_true_eq] at *
  omega

theorem blockLe_total (x y : MBlock) : (blockLe x y || blockLe y x) = true := by
  simp only [blockLe, Bool.or_eq_true, decide_eq_true_eq]
  omega

theorem sortedBlocks_valid (a b : List String) :
    ∀ blk ∈ sortedBlocks a b, ValidBlk a b blk := by
  intro blk hblk
  exact (getMatchingBlocksRaw_valid a b).1 blk
    ((sortList_perm blockLe (getMatchingBlocksRaw a b)).mem_iff.mp hblk)

theorem sortedBlocks_step (a b : List String) :
    List.Pairwise StepLe (sortedBlocks a b) := by
  have hperm := sortList_perm blockLe (getMatchingBlocksRaw a b)
  have hnc0 : List.Pairwise (fun x y : MBlock => NCZone x.zone y.zone)
      (getMatchingBlocksRaw a b) := by
    have := (getMatchingBlocksRaw_valid a b).2
    exact (List.pairwise_map).mp this
  have hnc : List.Pairwise (fun x y : MBlock => NCZone x.zone y.zone)
      (sortedBlocks a b) := by
    refine (List.Perm.pairwise_iff ?_ hperm).mpr hnc0
    intro x y h
    exact h.symm
  have hle : List.Pairwise (fun x y : MBlock => blockLe x y = true)
      (sortedBlocks a b) :=
    sortList_pairwise blockLe blockLe_trans blockLe_total (getMatchingBlocksRaw a b)
  have hand := hnc.and hle
  refine hand.imp_of_mem ?_
  intro x y hx hy h
  obtain ⟨hncxy, hlexy⟩ := h
  have hvx := sortedBlocks_valid a b x hx
  have hvy := sortedBlocks_valid a b y hy
  simp only [blockLe, decide_eq_true_eq] at hlexy
  rcases hncxy with h | h
  · exact ⟨h.1, h.2⟩
  · -- y entirely before x contradicts the sort order and positive sizes
    exfalso
    have h1 := h.1
    have h2 := h.2
    have hys := hvy.1
    have hxs := hvx.1
    simp only [MBlock.zone] at h1 h2
    omega

/-! ### Collapsing adjacent blocks -/

/-- A run of valid blocks that starts at or after `(x, y)` and steps
monotonically. -/
def ChainSeg (a b : List String) : Nat → Nat → List MBlock → Prop
  | _, _, [] => True
  | x, y, blk :: rest =>
      x ≤ blk.ai ∧ y ≤ blk.bj ∧ ValidBlk a b blk ∧
      ChainSeg a b (blk.ai + blk.size) (blk.bj + blk.size) rest

theorem chainSeg_weaken (a b : List String) :
    ∀ (l : List MBlock) (x y x2 y2 : Nat), x2 ≤ x → y2 ≤ y →
      ChainSeg a b x y l → ChainSeg a b x2 y2 l := by
  intro l
  cases l with
  | nil => intro x y x2 y2 _ _ _; trivial
  | cons blk rest =>
      intro x y x2 y2 hx hy h
      obtain ⟨h1, h2, h3, h4⟩ := h
      exact ⟨by omega, by omega, h3, h4⟩

theorem collapseAdj_chain (a b : List String) :
    ∀ (l : List MBlock) (cur : MBlock),
      (cur.size ≠ 0 → ValidBlk a b cur) →
      List.Pairwise StepLe l →
      (∀ blk ∈ l, ValidBlk a b blk) →
      (∀ blk ∈ l, cur.ai + cur.size ≤ blk.ai ∧ cur.bj + cur.size ≤ blk.bj) →
      ChainSeg a b cur.ai cur.bj (collapseAdj cur l) := by
  intro l
  induction l with
  | nil =>
      intro cur hcv _ _ _
      rw [collapseAdj]
      by_cases h : cur.size ≠ 0
      · rw [if_pos h]
        exact ⟨le_refl _, le_refl _, hcv h, trivial⟩
      · rw [if_neg h]
        trivial
  | cons blk rest ih =>
      intro cur hcv hpw hval hchain
      have hblkv := hval blk (List.mem_cons_self blk rest)
      have hcurblk := hchain blk (List.mem_cons_self blk rest)
      have hpwrest : List.Pairwise StepLe rest :=
        (List.pairwise_cons.mp hpw).2
      have hblkrest : ∀ x ∈ rest, StepLe blk x :=
        (List.pairwise_cons.mp hpw).1
      rw [collapseAdj]
      by_cases hadj : cur.ai + cur.size = blk.ai ∧ cur.bj + cur.size = blk.bj
      · rw [if_pos hadj]
        have hmv : ValidBlk a b ⟨cur.ai, cur.bj, cur.size + blk.size⟩ := by
          refine ⟨?_, ?_, ?_, ?_⟩
          · show 1 ≤ cur.size + blk.size
            have := hblkv.1
            omega
          · show cur.ai + (cur.size + blk.size) ≤ a.length
            have := hblkv.2.1
            omega
          · show cur.bj + (cur.size + blk.size) ≤ b.length
            have := hblkv.2.2.1
            omega
          · intro u hu
            show a.getD (cur.ai + u) "" = b.getD (cur.bj + u) ""
            by_cases hu2 : u < cur.size
            · exact (hcv (by omega)).2.2.2 u hu2
            · have e1 : cur.ai + u = blk.ai + (u - cur.size) := by omega
              have e2 : cur.bj + u = blk.bj + (u - cur.size) := by omega
              rw [e1, e2]
              exact hblkv.2.2.2 (u - cur.size) (by
                simp only at hu
                omega)
        have := ih ⟨cur.ai, cur.bj, cur.size + blk.size⟩
          (fun _ => hmv) hpwrest
          (fun x hx => hval x (List.mem_cons_of_mem blk hx))
          (by
            intro x hx
            have hs := hblkrest x hx
            obtain ⟨hs1, hs2⟩ := hs
            constructor
            · show cur.ai + (cur.size + blk.size) ≤ x.ai
              omega
            · show cur.bj + (cur.size + blk.size) ≤ x.bj
              omega)
        exact this
      · rw [if_neg hadj]
        have hrec := ih blk (fun _ => hblkv) hpwrest
          (fun x hx => hval x (List.mem_cons_of_mem blk hx))
          (fun x hx => hblkrest x hx)
        by_cases hc0 : cur.size ≠ 0
        · rw [if_pos hc0]
          refine ⟨le_refl _, le_refl _, hcv hc0, ?_⟩
          exact chainSeg_weaken a b _ _ _ _ _ hcurblk.1 hcurblk.2 hrec
        · rw [if_neg hc0]
          simp only [List.nil_append]
          have h0 : cur.size = 0 := by omega
          exact chainSeg_weaken a b _ _ _ _ _ (by omega) (by omega) hrec

/-- The final matching blocks tile monotonically from `(x, y)` up to
`(len a, len b)`: the terminating dummy included. -/
def BlocksOK (a b : List String) : Nat → Nat → List MBlock → Prop
  | x, y, [] => x = a.length ∧ y = b.length
  | x, y, blk :: rest =>
      x ≤ blk.ai ∧ y ≤ blk.bj ∧ blk.ai + blk.size ≤ a.length ∧
      blk.bj + blk.size ≤ b.length ∧ MatchSeg a b blk.ai blk.bj blk.size ∧
      BlocksOK a b (blk.ai + blk.size) (blk.bj + blk.size) rest

theorem chainSeg_blocksOK (a b : List String) :
    ∀ (l : List MBlock) (x y : Nat), x ≤ a.length → y ≤ b.length →
      ChainSeg a b x y l →
      BlocksOK a b x y (l ++ [⟨a.length, b.length, 0⟩]) := by
  intro l
  induction l with
  | nil =>
      intro x y hx hy _
      refine ⟨hx, hy, by simp, by simp, ?_, by constructor <;> rfl⟩
      intro u hu
      simp at hu
  | cons blk rest ih =>
      intro x y hx hy h
      obtain ⟨h1, h2, h3, h4⟩ := h
      refine ⟨h1, h2, h3.2.1, h3.2.2.1, h3.2.2.2, ?_⟩
      exact ih _ _ h3.2.1 h3.2.2.1 h4

theorem getMatchingBlocks_ok (a b : List String) :
    BlocksOK a b 0 0 (getMatchingBlocks a b) := by
  rw [getMatchingBlocks]
  apply chainSeg_blocksOK a b _ 0 0 (by omega) (by omega)
  have := collapseAdj_chain a b (sortedBlocks a b) ⟨0, 0, 0⟩
    (by
      intro h
      exact absurd rfl h) (sortedBlocks_step a b) (sortedBlocks_valid a b)
    (by
      intro blk hblk
      constructor
      · show 0 + 0 ≤ blk.ai
        omega
      · show 0 + 0 ≤ blk.bj
        omega)
  exact this

/-! ## difflib: `get_opcodes` -/

structure Opcode where
  tag : String
  i1 : Nat
  i2 : Nat
  j1 : Nat
  j2 : Nat
deriving DecidableEq, Repr

/-- The `for ai, bj, size in self.get_matching_blocks()` loop, carried by
the running `(i, j)` position. -/
def opcodesFromBlocks : Nat → Nat → List MBlock → List Opcode
  | _, _, [] => []
  | i, j, blk :: rest =>
    (if i < blk.ai ∧ j < blk.bj then [⟨"replace", i, blk.ai, j, blk.bj⟩]
      else if i < blk.ai then [⟨"delete", i, blk.ai, j, blk.bj⟩]
      else if j < blk.bj then [⟨"insert", i, blk.ai, j, blk.bj⟩]
      else [])
    ++ (if blk.size ≠ 0 then
        [⟨"equal", blk.ai, blk.ai + blk.size, blk.bj, blk.bj + blk.size⟩]
      else [])
    ++ opcodesFromBlocks (blk.ai + blk.size) (blk.bj + blk.size) rest

def getOpcodes (a b : List String) : List Opcode :=
  opcodesFromBlocks 0 0 (getMatchingBlocks a b)

/-- Opcodes tile `[x, len a) × [y, len b)` contiguously; `equal` opcodes
really match. -/
def OpsOK (a b : List String) : Nat → Nat → List Opcode → Prop
  | x, y, [] => x = a.length ∧ y = b.length
  | x, y, c :: rest =>
      c.i1 = x ∧ c.j1 = y ∧ x ≤ c.i2 ∧ y ≤ c.j2 ∧ c.i2 ≤ a.length ∧
      c.j2 ≤ b.length ∧
      (c.tag = "equal" → c.i2 - c.i1 = c.j2 - c.j1 ∧
        MatchSeg a b c.i1 c.j1 (c.i2 - c.i1)) ∧
      (c.tag = "equal" ∨ c.tag = "replace" ∨ c.tag = "delete" ∨
        c.tag = "insert") ∧
      (c.tag = "delete" → c.j1 = c.j2) ∧
      (c.tag = "insert" → c.i1 = c.i2) ∧
      OpsOK a b c.i2 c.j2 rest

theorem opcodesFromBlocks_ok (a b : List String) :
    ∀ (blocks : List MBlock) (x y : Nat), x ≤ a.length → y ≤ b.length →
      BlocksOK a b x y blocks →
      OpsOK a b x y (opcodesFromBlocks x y blocks) := by
  intro blocks
  induction blocks with
  | nil =>
      intro x y _ _ h
      exact h
  | cons blk rest ih =>
      intro x y hx hy h
      obtain ⟨h1, h2, h3, h4, h5, h6⟩ := h
      rw [opcodesFromBlocks]
      have hrec : OpsOK a b (blk.ai + blk.size) (blk.bj + blk.size)
          (opcodesFromBlocks (blk.ai + blk.size) (blk.bj + blk.size) rest) :=
        ih _ _ h3 h4 h6
      have heq : blk.size ≠ 0 → OpsOK a b blk.ai blk.bj
          ((if blk.size ≠ 0 then
              [⟨"equal", blk.ai, blk.ai + blk.size, blk.bj, blk.bj + blk.size⟩]
            else []) ++
            opcodesFromBlocks (blk.ai + blk.size) (blk.bj + blk.size) rest) := by
        intro hsz
        rw [if_pos hsz]
        refine ⟨rfl, rfl, ?_, ?_, h3, h4, ?_, Or.inl rfl,
          by intro habs; simp at habs, by intro habs; simp at habs, hrec⟩
        · show blk.ai ≤ blk.ai + blk.size
          omega
        · show blk.bj ≤ blk.bj + blk.size
          omega
        intro _
        constructor
        · show blk.ai + blk.size - blk.ai = blk.bj + blk.size - blk.bj
          omega
        · show MatchSeg a b blk.ai blk.bj (blk.ai + blk.size - blk.ai)
          have e : blk.ai + blk.size - blk.ai = blk.size := by omega
          rw [e]
          exact h5
      have heq0 : blk.size = 0 → ((if blk.size ≠ 0 then
              [⟨"equal", blk.ai, blk.ai + blk.size, blk.bj, blk.bj + blk.size⟩]
            else []) ++
            opcodesFromBlocks (blk.ai + blk.size) (blk.bj + blk.size) rest) =
          opcodesFromBlocks (blk.ai + blk.size) (blk.bj + blk.size) rest := by
        intro hsz
        rw [if_neg (by omega)]
        simp
      by_cases ht1 : x < blk.ai ∧ y < blk.bj
      · rw [if_pos ht1]
        simp only [List.cons_append, List.nil_append]
        refine ⟨rfl, rfl, ?_, ?_, ?_, ?_, ?_, Or.inr (Or.inl rfl),
          by intro habs; simp at habs, by intro habs; simp at habs, ?_⟩
        · show x ≤ blk.ai
          omega
        · show y ≤ blk.bj
          omega
        · show blk.ai ≤ a.length
          omega
        · show blk.bj ≤ b.length
          omega
        · intro habs
          simp at habs
        · by_cases hsz : blk.size ≠ 0
          · exact heq hsz
          · rw [heq0 (by omega)]
            set L := opcodesFromBlocks (blk.ai + blk.size) (blk.bj + blk.size) rest
              with hL
            have e1 : blk.ai + blk.size = blk.ai := by omega
            have e2 : blk.bj + blk.size = blk.bj := by omega
            rw [e1, e2] at hrec
            exact hrec
      · rw [if_neg ht1]
        by_cases ht2 : x < blk.ai
        · rw [if_pos ht2]
          have hyb : y = blk.bj := by omega
          simp only [List.cons_append, List.nil_append]
          refine ⟨rfl, rfl, ?_, ?_, ?_, ?_, ?_, Or.inr (Or.inr (Or.inl rfl)),
            by intro _; show y = blk.bj; omega,
            by intro habs; simp at habs, ?_⟩
          · show x ≤ blk.ai
            omega
          · show y ≤ blk.bj
            omega
          · show blk.ai ≤ a.length
            omega
          · show blk.bj ≤ b.length
            omega
          · intro habs
            simp at habs
          · by_cases hsz : blk.size ≠ 0
            · exact heq hsz
            · rw [heq0 (by omega)]
              set L := opcodesFromBlocks (blk.ai + blk.size) (blk.bj + blk.size) rest
                with hL
              have e1 : blk.ai + blk.size = blk.ai := by omega
              have e2 : blk.bj + blk.size = blk.bj := by omega
              rw [e1, e2] at hrec
              exact hrec
        · rw [if_neg ht2]
          by_cases ht3 : y < blk.bj
          · rw [if_pos ht3]
            have hxa : x = blk.ai := by omega
            simp only [List.cons_append, List.nil_append]
            refine ⟨rfl, rfl, ?_, ?_, ?_, ?_, ?_, Or.inr (Or.inr (Or.inr rfl)),
              by intro habs; simp at habs,
              by intro _; show x = blk.ai; omega, ?_⟩
            · show x ≤ blk.ai
              omega
            · show y ≤ blk.bj
              omega
            · show blk.ai ≤ a.length
              omega
            · show blk.bj ≤ b.length
              omega
            · intro habs
              simp at habs
            · by_cases hsz : blk.size ≠ 0
              · exact heq hsz
              · rw [heq0 (by omega)]
                set L := opcodesFromBlocks (blk.ai + blk.size) (blk.bj + blk.size) rest
                  with hL
                have e1 : blk.ai + blk.size = blk.ai := by omega
                have e2 : blk.bj + blk.size = blk.bj := by omega
                rw [e1, e2] at hrec
                exact hrec
          · rw [if_neg ht3]
            simp only [List.nil_append]
            have hxa : x = blk.ai := by omega
            have hyb : y = blk.bj := by omega
            subst hxa
            subst hyb
            by_cases hsz : blk.size ≠ 0
            · exact heq hsz
            · rw [heq0 (by omega)]
              set L := opcodesFromBlocks (blk.ai + blk.size) (blk.bj + blk.size) rest
                with hL
              have e1 : blk.ai + blk.size = blk.ai := by omega
              have e2 : blk.bj + blk.size = blk.bj := by omega
              rw [e1, e2] at hrec
              exact hrec

theorem getOpcodes_ok (a b : List String) :
    OpsOK a b 0 0 (getOpcodes a b) := by
  exact opcodesFromBlocks_ok a b _ 0 0 (by omega) (by omega)
    (getMatchingBlocks_ok a b)

/-! ## difflib: `get_grouped_opcodes(n=3)` -/

/-- Fixup of the leading group when it shows no changes. -/
def trimHead (n : Nat) : List Opcode → List Opcode
  | [] => []
  | c :: rest =>
    if c.tag = "equal" then
      ⟨c.tag, max c.i1 (c.i2 - n), c.i2, max c.j1 (c.j2 - n), c.j2⟩ :: rest
    else c :: rest

/-- Fixup of the trailing group when it shows no changes. -/
def trimLastAux (n : Nat) : List Opcode → List Opcode
  | [] => []
  | [c] =>
    if c.tag = "equal" then
      [⟨c.tag, c.i1, min c.i2 (c.i1 + n), c.j1, min c.j2 (c.j1 + n)⟩]
    else [c]
  | c :: rest => c :: trimLastAux n rest

/-- The grouping loop: split at `equal` opcodes wider than `2n`, keep `n`
lines of context on each side; the final group is dropped when it is
empty or a single `equal` opcode. -/
def groupSplit (n : Nat) : List Opcode → List Opcode → List (List Opcode)
  | group, [] =>
    if group.isEmpty then []
    else if group.length = 1 ∧ (group.headD ⟨"", 0, 0, 0, 0⟩).tag = "equal" then []
    else [group]
  | group, c :: rest =>
    if c.tag = "equal" ∧ n + n < c.i2 - c.i1 then
      (group ++ [⟨c.tag, c.i1, min c.i2 (c.i1 + n), c.j1, min c.j2 (c.j1 + n)⟩]) ::
        groupSplit n [⟨c.tag, max c.i1 (c.i2 - n), c.i2, max c.j1 (c.j2 - n), c.j2⟩] rest
    else groupSplit n (group ++ [c]) rest

/-- `get_grouped_opcodes(n)`. -/
def getGroupedOpcodes (a b : List String) (n : Nat) : List (List Opcode) :=
  let codes := getOpcodes a b
  let codes := if codes.isEmpty then [⟨"equal", 0, 1, 0, 1⟩] else codes
  let codes := trimHead n codes
  let codes := trimLastAux n codes
  groupSplit n [] codes

/-! ### Panorama: what the groups cover -/

/-- A contiguous run of opcodes from `(x, y)` to `(x2, y2)`. -/
def OpsSeg (a b : List String) : Nat → Nat → Nat → Nat → List Opcode → Prop
  | x, y, x2, y2, [] => x = x2 ∧ y = y2
  | x, y, x2, y2, c :: rest =>
      c.i1 = x ∧ c.j1 = y ∧ x ≤ c.i2 ∧ y ≤ c.j2 ∧ c.i2 ≤ a.length ∧
      c.j2 ≤ b.length ∧
      (c.tag = "equal" → c.i2 - c.i1 = c.j2 - c.j1 ∧
        MatchSeg a b c.i1 c.j1 (c.i2 - c.i1)) ∧
      (c.tag = "equal" ∨ c.tag = "replace" ∨ c.tag = "delete" ∨
        c.tag = "insert") ∧
      (c.tag = "delete" → c.j1 = c.j2) ∧
      (c.tag = "insert" → c.i1 = c.i2) ∧
      OpsSeg a b c.i2 c.j2 x2 y2 rest

/-- The groups, in order, cover `a`/`b` from `(x, y)` to the ends; the
stretches between and around them are matching. -/
def Covers (a b : List String) : Nat → Nat → List (List Opcode) → Prop
  | x, y, [] => ∃ d, x + d = a.length ∧ y + d = b.length ∧ MatchSeg a b x y d
  | x, y, g :: gs => ∃ d x2 y2, MatchSeg a b x y d ∧ g ≠ [] ∧
      OpsSeg a b (x + d) (y + d) x2 y2 g ∧ Covers a b x2 y2 gs

theorem matchSeg_zero (a b : List String) (x y : Nat) : MatchSeg a b x y 0 := by
  intro u hu
  omega

theorem matchSeg_concat (a b : List String) (x y d1 d2 : Nat)
    (h1 : MatchSeg a b x y d1) (h2 : MatchSeg a b (x + d1) (y + d1) d2) :
    MatchSeg a b x y (d1 + d2) := by
  intro u hu
  by_cases hu1 : u < d1
  · exact h1 u hu1
  · have e1 : x + u = x + d1 + (u - d1) := by omega
    have e2 : y + u = y + d1 + (u - d1) := by omega
    rw [e1, e2]
    exact h2 (u - d1) (by omega)

theorem matchSeg_sub (a b : List String) (x y k o k2 : Nat)
    (h : MatchSeg a b x y k) (hk : o + k2 ≤ k) :
    MatchSeg a b (x + o) (y + o) k2 := by
  intro u hu
  have e1 : x + o + u = x + (o + u) := by omega
  have e2 : y + o + u = y + (o + u) := by omega
  rw [e1, e2]
  exact h (o + u) (by omega)

theorem opsSeg_append (a b : List String) :
    ∀ (g1 g2 : List Opcode) (x y q r x2 y2 : Nat),
      OpsSeg a b x y q r g1 → OpsSeg a b q r x2 y2 g2 →
      OpsSeg a b x y x2 y2 (g1 ++ g2) := by
  intro g1
  induction g1 with
  | nil =>
      intro g2 x y q r x2 y2 h1 h2
      obtain ⟨e1, e2⟩ := h1
      subst e1
      subst e2
      simpa using h2
  | cons c rest ih =>
      intro g2 x y q r x2 y2 h1 h2
      obtain ⟨e1, e2, e3, e4, e5, e6, e7, e7m, e7a, e7b, e8⟩ := h1
      exact ⟨e1, e2, e3, e4, e5, e6, e7, e7m, e7a, e7b, ih g2 _ _ _ _ _ _ e8 h2⟩

/-- A matching gap can be absorbed into the next cover. -/
theorem covers_absorb (a b : List String) (x y d : Nat)
    (hm : MatchSeg a b x y d) :
    ∀ gs, Covers a b (x + d) (y + d) gs → Covers a b x y gs := by
  intro gs
  cases gs with
  | nil =>
      intro h
      obtain ⟨d2, h1, h2, h3⟩ := h
      refine ⟨d + d2, by omega, by omega, ?_⟩
      exact matchSeg_concat a b x y d d2 hm h3
  | cons g gs =>
      intro h
      obtain ⟨d2, x2, y2, h1, h2, h3, h4⟩ := h
      refine ⟨d + d2, x2, y2, ?_, h2, ?_, h4⟩
      · exact matchSeg_concat a b x y d d2 hm h1
      · have e1 : x + (d + d2) = x + d + d2 := by omega
        have e2 : y + (d + d2) = y + d + d2 := by omega
        rw [e1, e2]
        exact h3

theorem opsOK_seg (a b : List String) :
    ∀ (codes : List Opcode) (x y : Nat), OpsOK a b x y codes →
      OpsSeg a b x y a.length b.length codes := by
  intro codes
  induction codes with
  | nil => intro x y h; exact h
  | cons c rest ih =>
      intro x y h
      obtain ⟨h1, h2, h3, h4, h5, h6, h7, h7m, h7a, h7b, h8⟩ := h
      exact ⟨h1, h2, h3, h4, h5, h6, h7, h7m, h7a, h7b, ih _ _ h8⟩

theorem trimHead_seg (a b : List String) (n : Nat) :
    ∀ (codes : List Opcode) (x y X Y : Nat), OpsSeg a b x y X Y codes →
      ∃ d, MatchSeg a b x y d ∧ OpsSeg a b (x + d) (y + d) X Y (trimHead n codes) := by
  intro codes x y X Y h
  cases codes with
  | nil =>
      exact ⟨0, matchSeg_zero a b x y, h⟩
  | cons c rest =>
      rw [trimHead]
      by_cases he : c.tag = "equal"
      · rw [if_pos he]
        obtain ⟨h1, h2, h3, h4, h5, h6, h7, h7m, h7a, h7b, h8⟩ := h
        obtain ⟨hlen, hmatch⟩ := h7 he
        set d := max c.i1 (c.i2 - n) - c.i1 with hd
        have hdle : c.i1 + d ≤ c.i2 := by omega
        have hjd : max c.j1 (c.j2 - n) = c.j1 + d := by omega
        refine ⟨d, ?_, ?_⟩
        · rw [← h1, ← h2]
          exact matchSeg_sub a b c.i1 c.j1 (c.i2 - c.i1) 0 d hmatch (by omega)
        · refine ⟨?_, ?_, ?_, ?_, h5, h6, ?_, Or.inl he,
            by intro habs; have hq : c.tag = "delete" := habs; rw [he] at hq; simp at hq,
            by intro habs; have hq : c.tag = "insert" := habs; rw [he] at hq; simp at hq,
            h8⟩
          · show max c.i1 (c.i2 - n) = x + d
            omega
          · show max c.j1 (c.j2 - n) = y + d
            omega
          · show x + d ≤ c.i2
            omega
          · show y + d ≤ c.j2
            omega
          · intro _
            constructor
            · show c.i2 - max c.i1 (c.i2 - n) = c.j2 - max c.j1 (c.j2 - n)
              omega
            · show MatchSeg a b (max c.i1 (c.i2 - n)) (max c.j1 (c.j2 - n))
                (c.i2 - max c.i1 (c.i2 - n))
              have e1 : max c.i1 (c.i2 - n) = c.i1 + d := by omega
              rw [e1, hjd]
              exact matchSeg_sub a b c.i1 c.j1 (c.i2 - c.i1) d
                (c.i2 - (c.i1 + d)) hmatch (by omega)
      · rw [if_neg he]
        exact ⟨0, matchSeg_zero a b x y, h⟩

theorem trimLast_seg (a b : List String) (n : Nat) :
    ∀ (codes : List Opcode) (x y : Nat),
      OpsSeg a b x y a.length b.length codes →
      ∃ d X Y, X + d = a.length ∧ Y + d = b.length ∧ MatchSeg a b X Y d ∧
        OpsSeg a b x y X Y (trimLastAux n codes) := by
  intro codes
  induction codes with
  | nil =>
      intro x y h
      obtain ⟨h1, h2⟩ := h
      exact ⟨0, x, y, by omega, by omega, matchSeg_zero a b x y,
        by constructor <;> rfl⟩
  | cons c rest ih =>
      intro x y h
      obtain ⟨h1, h2, h3, h4, h5, h6, h7, h7m, h7a, h7b, h8⟩ := h
      cases rest with
      | nil =>
          obtain ⟨e1, e2⟩ := h8
          rw [trimLastAux]
          by_cases he : c.tag = "equal"
          · rw [if_pos he]
            obtain ⟨hlen, hmatch⟩ := h7 he
            set X := min c.i2 (c.i1 + n) with hX
            set Y := min c.j2 (c.j1 + n) with hY
            have hi12 : c.i1 ≤ c.i2 := by omega
            have hYd : Y = c.j1 + (X - c.i1) := by omega
            refine ⟨c.i2 - X, X, Y, by omega, by omega, ?_, ?_⟩
            · intro u hu
              have e1 : X + u = c.i1 + ((X - c.i1) + u) := by omega
              have e2 : Y + u = c.j1 + ((X - c.i1) + u) := by omega
              rw [e1, e2]
              exact hmatch ((X - c.i1) + u) (by omega)
            · refine ⟨h1, h2, ?_, ?_, ?_, ?_, ?_, Or.inl he,
                by intro habs; have hq : c.tag = "delete" := habs
                   rw [he] at hq; simp at hq,
                by intro habs; have hq : c.tag = "insert" := habs
                   rw [he] at hq; simp at hq,
                ?_⟩
              · show x ≤ X
                omega
              · show y ≤ Y
                omega
              · show X ≤ a.length
                omega
              · show Y ≤ b.length
                omega
              · intro _
                constructor
                · show X - c.i1 = Y - c.j1
                  omega
                · show MatchSeg a b c.i1 c.j1 (X - c.i1)
                  exact matchSeg_sub a b c.i1 c.j1 (c.i2 - c.i1) 0 (X - c.i1)
                    hmatch (by omega)
              · constructor <;> rfl
          · rw [if_neg he]
            exact ⟨0, c.i2, c.j2, by omega, by omega, matchSeg_zero a b _ _,
              ⟨h1, h2, h3, h4, h5, h6, h7, h7m, h7a, h7b, by constructor <;> rfl⟩⟩
      | cons c2 rest2 =>
          obtain ⟨d, X, Y, e1, e2, e3, e4⟩ := ih _ _ h8
          rw [trimLastAux]
          · exact ⟨d, X, Y, e1, e2, e3, ⟨h1, h2, h3, h4, h5, h6, h7, h7m, h7a, h7b, e4⟩⟩
          · exact fun habs => List.cons_ne_nil c2 rest2 habs

theorem groupSplit_covers (a b : List String) (n : Nat) :
    ∀ (codes group : List Opcode) (gx gy x y X Y d : Nat),
      OpsSeg a b gx gy x y group →
      OpsSeg a b x y X Y codes →
      X + d = a.length → Y + d = b.length → MatchSeg a b X Y d →
      Covers a b gx gy (groupSplit n group codes) := by
  intro codes
  induction codes with
  | nil =>
      intro group gx gy x y X Y d hg hc h1 h2 h3
      obtain ⟨e1, e2⟩ := hc
      subst e1
      subst e2
      rw [groupSplit]
      by_cases hemp : group.isEmpty
      · rw [if_pos hemp]
        have hgnil : group = [] := List.isEmpty_iff.mp hemp
        subst hgnil
        obtain ⟨f1, f2⟩ := hg
        subst f1
        subst f2
        exact ⟨d, h1, h2, h3⟩
      · rw [if_neg hemp]
        by_cases hsingle : group.length = 1 ∧
            (group.headD ⟨"", 0, 0, 0, 0⟩).tag = "equal"
        · rw [if_pos hsingle]
          obtain ⟨c, hcg⟩ := List.length_eq_one.mp hsingle.1
          subst hcg
          have hceq : c.tag = "equal" := hsingle.2
          obtain ⟨g1, g2, g3, g4, g5, g6, g7, g7m, g7a, g7b, g8⟩ := hg
          obtain ⟨g9, g10⟩ := g8
          obtain ⟨hlen, hmatch⟩ := g7 hceq
          refine ⟨(c.i2 - c.i1) + d, by omega, by omega, ?_⟩
          apply matchSeg_concat
          · intro u hu
            rw [← g1, ← g2]
            exact hmatch u hu
          · have e1 : gx + (c.i2 - c.i1) = x := by omega
            have e2 : gy + (c.i2 - c.i1) = y := by omega
            rw [e1, e2]
            exact h3
        · rw [if_neg hsingle]
          refine ⟨0, x, y, matchSeg_zero a b gx gy, ?_, hg, d, h1, h2, h3⟩
          intro habs
          subst habs
          simp at hemp
  | cons c rest ih =>
      intro group gx gy x y X Y d hg hc h1 h2 h3
      obtain ⟨hc1, hc2, hc3, hc4, hc5, hc6, hc7, hc7m, hc7a, hc7b, hc8⟩ := hc
      rw [groupSplit]
      by_cases hbig : c.tag = "equal" ∧ n + n < c.i2 - c.i1
      · rw [if_pos hbig]
        obtain ⟨hlen, hmatch⟩ := hc7 hbig.1
        have hii : c.i1 < c.i2 := by omega
        have hjj : c.j1 ≤ c.j2 := by omega
        have hminI : min c.i2 (c.i1 + n) = c.i1 + n := by omega
        have hminJ : min c.j2 (c.j1 + n) = c.j1 + n := by omega
        have hmaxI : max c.i1 (c.i2 - n) = c.i2 - n := by omega
        have hmaxJ : max c.j1 (c.j2 - n) = c.j2 - n := by omega
        refine ⟨0, c.i1 + n, c.j1 + n, matchSeg_zero a b gx gy, by simp, ?_, ?_⟩
        · -- chain `group ++ [stub1]` from (gx, gy) to (c.i1+n, c.j1+n)
          apply opsSeg_append a b group _ gx gy x y _ _ hg
          refine ⟨hc1, hc2, ?_, ?_, ?_, ?_, ?_, Or.inl hbig.1,
            by intro habs; have hq : c.tag = "delete" := habs
               rw [hbig.1] at hq; simp at hq,
            by intro habs; have hq : c.tag = "insert" := habs
               rw [hbig.1] at hq; simp at hq,
            ?_⟩
          · show x ≤ min c.i2 (c.i1 + n)
            omega
          · show y ≤ min c.j2 (c.j1 + n)
            omega
          · show min c.i2 (c.i1 + n) ≤ a.length
            omega
          · show min c.j2 (c.j1 + n) ≤ b.length
            omega
          · intro _
            constructor
            · show min c.i2 (c.i1 + n) - c.i1 = min c.j2 (c.j1 + n) - c.j1
              omega
            · show MatchSeg a b c.i1 c.j1 (min c.i2 (c.i1 + n) - c.i1)
              exact matchSeg_sub a b c.i1 c.j1 (c.i2 - c.i1) 0 _ hmatch (by omega)
          · constructor
            · show min c.i2 (c.i1 + n) = c.i1 + n
              exact hminI
            · show min c.j2 (c.j1 + n) = c.j1 + n
              exact hminJ
        · -- panorama of the rest, anchored after the kept context
          have hstub2 : OpsSeg a b (c.i2 - n) (c.j2 - n) c.i2 c.j2
              [⟨c.tag, max c.i1 (c.i2 - n), c.i2, max c.j1 (c.j2 - n), c.j2⟩] := by
            refine ⟨?_, ?_, ?_, ?_, ?_, ?_, ?_, Or.inl hbig.1,
              by intro habs; have hq : c.tag = "delete" := habs
                 rw [hbig.1] at hq; simp at hq,
              by intro habs; have hq : c.tag = "insert" := habs
                 rw [hbig.1] at hq; simp at hq,
              ?_⟩
            · show max c.i1 (c.i2 - n) = c.i2 - n
              exact hmaxI
            · show max c.j1 (c.j2 - n) = c.j2 - n
              exact hmaxJ
            · show c.i2 - n ≤ c.i2
              omega
            · show c.j2 - n ≤ c.j2
              omega
            · show c.i2 ≤ a.length
              omega
            · show c.j2 ≤ b.length
              omega
            · intro _
              constructor
              · show c.i2 - max c.i1 (c.i2 - n) = c.j2 - max c.j1 (c.j2 - n)
                omega
              · show MatchSeg a b (max c.i1 (c.i2 - n)) (max c.j1 (c.j2 - n))
                  (c.i2 - max c.i1 (c.i2 - n))
                rw [hmaxI, hmaxJ]
                intro u hu
                have e1 : c.i2 - n + u = c.i1 + ((c.i2 - n - c.i1) + u) := by omega
                have e2 : c.j2 - n + u = c.j1 + ((c.i2 - n - c.i1) + u) := by omega
                rw [e1, e2]
                exact hmatch _ (by omega)
            · constructor <;> rfl
          have hIH := ih
            [⟨c.tag, max c.i1 (c.i2 - n), c.i2, max c.j1 (c.j2 - n), c.j2⟩]
            (c.i2 - n) (c.j2 - n) c.i2 c.j2 X Y d hstub2 hc8 h1 h2 h3
          have hgap : MatchSeg a b (c.i1 + n) (c.j1 + n) (c.i2 - n - (c.i1 + n)) := by
            intro u hu
            have e1 : c.i1 + n + u = c.i1 + (n + u) := by omega
            have e2 : c.j1 + n + u = c.j1 + (n + u) := by omega
            rw [e1, e2]
            exact hmatch _ (by omega)
          refine covers_absorb a b (c.i1 + n) (c.j1 + n)
            (c.i2 - n - (c.i1 + n)) hgap _ ?_
          have e1 : c.i1 + n + (c.i2 - n - (c.i1 + n)) = c.i2 - n := by omega
          have e2 : c.j1 + n + (c.i2 - n - (c.i1 + n)) = c.j2 - n := by omega
          rw [e1, e2]
          exact hIH
      · rw [if_neg hbig]
        apply ih (group ++ [c]) gx gy c.i2 c.j2 X Y d ?_ hc8 h1 h2 h3
        apply opsSeg_append a b group [c] gx gy x y _ _ hg
        refine ⟨hc1, hc2, hc3, hc4, hc5, hc6, hc7, hc7m, hc7a, hc7b, ?_⟩
        constructor <;> rfl

/-- The grouped opcodes, from position `(0, 0)`, cover all of `a` and `b`. -/
theorem getGroupedOpcodes_covers (a b : List String) :
    Covers a b 0 0 (getGroupedOpcodes a b 3) := by
  by_cases hnil : (getOpcodes a b).isEmpty
  · have h := getOpcodes_ok a b
    have hgo : getOpcodes a b = [] := List.isEmpty_iff.mp hnil
    rw [hgo] at h
    obtain ⟨h1, h2⟩ := h
    have hred : getGroupedOpcodes a b 3 = [] := by
      rw [getGroupedOpcodes, hgo]
      decide
    rw [hred]
    exact ⟨0, by omega, by omega, matchSeg_zero a b 0 0⟩
  · have hne : (getOpcodes a b).isEmpty = false := by
      exact Bool.not_eq_true _ |>.mp hnil
    have hred : getGroupedOpcodes a b 3 =
        groupSplit 3 [] (trimLastAux 3 (trimHead 3 (getOpcodes a b))) := by
      rw [getGroupedOpcodes, hne]
      simp
    rw [hred]
    have hcodes := opsOK_seg a b _ 0 0 (getOpcodes_ok a b)
    obtain ⟨d1, hm1, hseg1⟩ := trimHead_seg a b 3 _ 0 0 a.length b.length hcodes
    obtain ⟨d2, X, Y, e1, e2, e3, hseg2⟩ := trimLast_seg a b 3 _ _ _ hseg1
    refine covers_absorb a b 0 0 d1 hm1 _ ?_
    exact groupSplit_covers a b 3 _ [] (0 + d1) (0 + d1) (0 + d1) (0 + d1) X Y d2
      (by constructor <;> rfl) hseg2 e1 e2 e3

/-! ## difflib: `unified_diff` (with `lineterm = ""`), and a diff applier -/

/-- `difflib._format_range_unified(start, stop)`. -/
def formatRangeUnified (start stop : Nat) : String :=
  let beginning := start + 1
  let length := stop - start
  if length = 1 then natToDec beginning
  else natToDec (if length = 0 then beginning - 1 else beginning) ++
    "," ++ natToDec length

/-- The slice `l[i:j]`. -/
def sliceL (l : List String) (i j : Nat) : List String :=
  (l.drop i).take (j - i)

/-- The body lines one opcode contributes to its hunk. -/
def opcodeLines (a b : List String) (c : Opcode) : List String :=
  if c.tag = "equal" then (sliceL a c.i1 c.i2).map (fun s => " " ++ s)
  else
    (if c.tag = "replace" ∨ c.tag = "delete" then
      (sliceL a c.i1 c.i2).map (fun s => "-" ++ s) else []) ++
    (if c.tag = "replace" ∨ c.tag = "insert" then
      (sliceL b c.j1 c.j2).map (fun s => "+" ++ s) else [])

/-- The `@@ -… +… @@` header of one group (empty `lineterm`). -/
def hunkHeader (group : List Opcode) : String :=
  let first := group.headD ⟨"", 0, 0, 0, 0⟩
  let last := group.getLastD ⟨"", 0, 0, 0, 0⟩
  "@@ -" ++ formatRangeUnified first.i1 last.i2 ++ " +" ++
    formatRangeUnified first.j1 last.j2 ++ " @@"

def groupLines (a b : List String) (group : List Opcode) : List String :=
  hunkHeader group :: group.flatMap (opcodeLines a b)

/-- The line stream of `unified_diff(a, b, fromfile, tofile, lineterm="")`:
nothing at all when there are no groups, else the two file headers
followed by the hunks. -/
def unifiedDiffLines (a b : List String) (fromfile tofile : String) :
    List String :=
  let groups := getGroupedOpcodes a b 3
  if groups.isEmpty then []
  else ("--- " ++ fromfile) :: ("+++ " ++ tofile) ::
    groups.flatMap (groupLines a b)

/-- `FixApplicator._generate_diff`: split with `keepends`, diff, join the
yielded lines with no separator. -/
def generateDiff (original fixed filename : String) : String :=
  pyJoin (unifiedDiffLines (pySplitKeep original) (pySplitKeep fixed)
    ("a/" ++ filename) ("b/" ++ filename))

/-- Read the 0-based start position in `a` off a `@@ -start[,len] … @@`
hunk header, undoing `formatRangeUnified`. -/
def parseHunkHeaderA (line : String) : Option Nat :=
  let rest := line.data.drop 4
  if line.data.take 4 = ['@', '@', ' ', '-'] ∧ isDigitChar (rest.headD '@') then
    let p := takeDigits rest 0
    if p.2.headD '@' = ',' then
      if isDigitChar (p.2.tail.headD '@') then
        if (takeDigits p.2.tail 0).1 = 0 then some p.1 else some (p.1 - 1)
      else none
    else some (p.1 - 1)
  else none

/-- Consume the tagged body lines of a hunk: count the lines drawn from
`a` (tags `' '` and `'-'`), collect the output lines (tags `' '` and
`'+'`), and stop at the first line carrying any other tag. -/
def readBody : List String → Nat → List String → Nat × List String × List String
  | [], aCnt, bAcc => (aCnt, bAcc, [])
  | l :: rest, aCnt, bAcc =>
    if l.data.head? = some ' ' then
      readBody rest (aCnt + 1) (bAcc ++ [⟨l.data.tail⟩])
    else if l.data.head? = some '-' then readBody rest (aCnt + 1) bAcc
    else if l.data.head? = some '+' then
      readBody rest aCnt (bAcc ++ [⟨l.data.tail⟩])
    else (aCnt, bAcc, l :: rest)

/-- Replay the hunks in `lines` over `a`: `pos` is the next unemitted
position of `a` and `out` the output built so far, fueled by the number
of headers still allowed. -/
def applyHunksGo (a : List String) : Nat → Nat → List String → List String →
    Option (List String)
  | _, pos, out, [] => some (out ++ a.drop pos)
  | 0, _, _, _ :: _ => none
  | fuel + 1, pos, out, l :: rest =>
    if (parseHunkHeaderA l).isSome then
      let s := (parseHunkHeaderA l).getD 0
      let r := readBody rest 0 []
      if pos ≤ s ∧ s + r.1 ≤ a.length then
        applyHunksGo a fuel (s + r.1) (out ++ sliceL a pos s ++ r.2.1) r.2.2
      else none
    else none

/-- Apply a unified diff, given as its line stream, to `a`. An empty
diff changes nothing; otherwise the two file headers are checked and
the hunks are replayed in order. -/
def applyUnifiedDiff (lines a : List String) : Option (List String) :=
  match lines with
  | [] => some a
  | _ :: [] => none
  | l1 :: l2 :: rest =>
    if pyStartsWith l1 "--- " ∧ pyStartsWith l2 "+++ " then
      applyHunksGo a rest.length 0 [] rest
    else none

/-! ### Slices and matching segments -/

theorem sliceL_nil (l : List String) (i : Nat) : sliceL l i i = [] := by
  simp [sliceL]

theorem sliceL_cons (l : List String) (i d : Nat) (h : i < l.length) :
    sliceL l i (i + d + 1) = l.getD i "" :: sliceL l (i + 1) (i + 1 + d) := by
  rw [sliceL, sliceL]
  have e1 : i + d + 1 - i = d + 1 := by omega
  have e2 : i + 1 + d - (i + 1) = d := by omega
  rw [e1, e2, List.drop_eq_getElem_cons h, List.take_succ_cons]
  congr 1
  rw [List.getD_eq_getElem l "" h]

theorem sliceL_eq_of_match (a b : List String) :
    ∀ (d x y : Nat), x + d ≤ a.length → y + d ≤ b.length →
      MatchSeg a b x y d → sliceL a x (x + d) = sliceL b y (y + d) := by
  intro d
  induction d with
  | zero => intro x y _ _ _; simp [sliceL]
  | succ d ih =>
      intro x y hx hy hm
      have hxa : x < a.length := by omega
      have hyb : y < b.length := by omega
      have e1 : x + (d + 1) = x + d + 1 := by omega
      have e2 : y + (d + 1) = y + d + 1 := by omega
      rw [e1, e2, sliceL_cons a x d hxa, sliceL_cons b y d hyb]
      congr 1
      · have h0 := hm 0 (by omega)
        simpa using h0
      · refine ih (x + 1) (y + 1) (by omega) (by omega) ?_
        intro u hu
        have hu1 := hm (u + 1) (by omega)
        have e3 : x + (u + 1) = x + 1 + u := by omega
        have e4 : y + (u + 1) = y + 1 + u := by omega
        rw [e3, e4] at hu1
        exact hu1

theorem sliceL_length (l : List String) (i j : Nat) (h1 : i ≤ j)
    (h2 : j ≤ l.length) : (sliceL l i j).length = j - i := by
  rw [sliceL, List.length_take, List.length_drop]
  omega

theorem sliceL_append (l : List String) (i j k : Nat) (h1 : i ≤ j)
    (h2 : j ≤ k) : sliceL l i j ++ sliceL l j k = sliceL l i k := by
  rw [sliceL, sliceL, sliceL]
  have e : k - i = (j - i) + (k - j) := by omega
  rw [e, List.take_add, List.drop_drop]
  rw [show i + (j - i) = j from by omega]

theorem matchSeg_drop (a b : List String) (x y d : Nat)
    (hx : x + d = a.length) (hy : y + d = b.length)
    (hm : MatchSeg a b x y d) : a.drop x = b.drop y := by
  have h1 : a.drop x = sliceL a x (x + d) := by
    rw [sliceL]
    have e : x + d - x = d := by omega
    rw [e, List.take_of_length_le]
    rw [List.length_drop]
    omega
  have h2 : b.drop y = sliceL b y (y + d) := by
    rw [sliceL]
    have e : y + d - y = d := by omega
    rw [e, List.take_of_length_le]
    rw [List.length_drop]
    omega
  rw [h1, h2]
  exact sliceL_eq_of_match a b d x y (by omega) (by omega) hm

theorem matchSeg_full (a b : List String) (d : Nat)
    (ha : a.length = d) (hb : b.length = d) (hm : MatchSeg a b 0 0 d) :
    a = b := by
  have h := matchSeg_drop a b 0 0 d (by omega) (by omega) hm
  simpa using h

/-! ### Decimal rendering starts with a digit -/

theorem natToDecAux_head (n : Nat) :
    ∃ c cs, natToDecAux n [] = c :: cs ∧ isDigitChar c = true := by
  induction n using Nat.strong_induction_on with
  | _ n ih =>
      by_cases h : n < 10
      · refine ⟨Nat.digitChar n, [], ?_, ?_⟩
        · rw [natToDecAux_unfold, if_pos h]
        · simp [isDigitChar, digitChar_toNat n h]
          omega
      · obtain ⟨c, cs, hc, hd⟩ := ih (n / 10) (by omega)
        refine ⟨c, cs ++ [Nat.digitChar (n % 10)], ?_, hd⟩
        rw [natToDecAux_unfold, if_neg h, natToDecAux_append, hc]
        simp

theorem charListPrefix_append (cs ds : List Char) :
    charListPrefix cs (cs ++ ds) = true := by
  induction cs with
  | nil => rfl
  | cons c cs ih => simp [charListPrefix, ih]

theorem pyStartsWith_append (p s : String) : pyStartsWith (p ++ s) p = true := by
  rw [pyStartsWith, String.data_append]
  exact charListPrefix_append p.data s.data

/-! ### Parsing back a formatted hunk header -/

theorem parseHunkHeaderA_eq (line : String) (rest : List Char)
    (hdata : line.data = '@' :: '@' :: ' ' :: '-' :: rest) :
    parseHunkHeaderA line =
      (if isDigitChar (rest.headD '@') then
        if (takeDigits rest 0).2.headD '@' = ',' then
          if isDigitChar ((takeDigits rest 0).2.tail.headD '@') then
            if (takeDigits (takeDigits rest 0).2.tail 0).1 = 0 then
              some (takeDigits rest 0).1
            else some ((takeDigits rest 0).1 - 1)
          else none
        else some ((takeDigits rest 0).1 - 1)
      else none) := by
  have h1 : line.data.take 4 = ['@', '@', ' ', '-'] := by rw [hdata]; rfl
  have h2 : line.data.drop 4 = rest := by rw [hdata]; rfl
  rw [parseHunkHeaderA]
  simp only [h1, h2]
  simp

theorem stop_of_head (c0 : Char) (hnd : isDigitChar c0 = false)
    (r : List Char) :
    ∀ c r2, c0 :: r = c :: r2 → isDigitChar c = false := by
  intro c r2 he
  injection he with ha _
  rw [← ha]
  exact hnd

theorem parseHunkHeaderA_format (i1 i2 j1 j2 : Nat) :
    parseHunkHeaderA ("@@ -" ++ formatRangeUnified i1 i2 ++ " +" ++
      formatRangeUnified j1 j2 ++ " @@") = some i1 := by
  have e1 : ("@@ -" : String).data = ['@', '@', ' ', '-'] := rfl
  have e2 : (" +" : String).data = [' ', '+'] := rfl
  have e3 : (" @@" : String).data = [' ', '@', '@'] := rfl
  have hdata : ("@@ -" ++ formatRangeUnified i1 i2 ++ " +" ++
      formatRangeUnified j1 j2 ++ " @@").data =
      '@' :: '@' :: ' ' :: '-' :: ((formatRangeUnified i1 i2).data ++
        (' ' :: '+' :: ((formatRangeUnified j1 j2).data ++ [' ', '@', '@']))) := by
    simp [String.data_append, e1, e2, e3]
  rw [parseHunkHeaderA_eq _ _ hdata]
  have hstopT := stop_of_head ' ' (by decide)
    ('+' :: ((formatRangeUnified j1 j2).data ++ [' ', '@', '@']))
  by_cases hd1 : i2 - i1 = 1
  · have hF : formatRangeUnified i1 i2 = natToDec (i1 + 1) := by
      simp [formatRangeUnified, hd1]
    obtain ⟨c, cs, hc, hdig⟩ := natToDecAux_head (i1 + 1)
    have hFd : (formatRangeUnified i1 i2).data = natToDecAux (i1 + 1) [] := by
      rw [hF]
      rfl
    rw [hFd]
    have htd := takeDigits_natToDec_stop (i1 + 1)
      (' ' :: '+' :: ((formatRangeUnified j1 j2).data ++ [' ', '@', '@'])) hstopT
    have hhd : ((natToDecAux (i1 + 1) []) ++ (' ' :: '+' ::
        ((formatRangeUnified j1 j2).data ++ [' ', '@', '@']))).headD '@' = c := by
      rw [hc]
      rfl
    rw [hhd, hdig, if_pos rfl, htd]
    simp
  · by_cases hd0 : i2 - i1 = 0
    · have hF : formatRangeUnified i1 i2 = natToDec i1 ++ "," ++ natToDec 0 := by
        simp [formatRangeUnified, hd0]
      obtain ⟨c, cs, hc, hdig⟩ := natToDecAux_head i1
      have hFd : (formatRangeUnified i1 i2).data =
          natToDecAux i1 [] ++ [',', '0'] := by
        rw [hF]
        simp [String.data_append]
        rfl
      rw [hFd]
      simp only [List.append_assoc, List.cons_append, List.nil_append]
      have hstopC := stop_of_head ',' (by decide)
        ('0' :: ' ' :: '+' :: ((formatRangeUnified j1 j2).data ++ [' ', '@', '@']))
      have htd := takeDigits_natToDec_stop i1
        (',' :: '0' :: ' ' :: '+' ::
          ((formatRangeUnified j1 j2).data ++ [' ', '@', '@'])) hstopC
      have hhd : ((natToDecAux i1 []) ++ (',' :: '0' :: ' ' :: '+' ::
          ((formatRangeUnified j1 j2).data ++ [' ', '@', '@']))).headD '@' = c := by
        rw [hc]
        rfl
      have htd0 : takeDigits ('0' :: ' ' :: '+' ::
          ((formatRangeUnified j1 j2).data ++ [' ', '@', '@'])) 0 =
          (0, ' ' :: '+' :: ((formatRangeUnified j1 j2).data ++ [' ', '@', '@'])) :=
        takeDigits_natToDec_stop 0
          (' ' :: '+' :: ((formatRangeUnified j1 j2).data ++ [' ', '@', '@'])) hstopT
      rw [hhd, hdig, if_pos rfl, htd]
      simp only [List.headD_cons, List.tail_cons]
      rw [if_pos trivial]
      rw [if_pos (show isDigitChar '0' = true by decide)]
      rw [htd0]
      simp
    · have hF : formatRangeUnified i1 i2 =
          natToDec (i1 + 1) ++ "," ++ natToDec (i2 - i1) := by
        simp [formatRangeUnified, hd1, hd0]
      obtain ⟨c, cs, hc, hdig⟩ := natToDecAux_head (i1 + 1)
      obtain ⟨c2, cs2, hc2, hdig2⟩ := natToDecAux_head (i2 - i1)
      have hFd : (formatRangeUnified i1 i2).data =
          natToDecAux (i1 + 1) [] ++ (',' :: natToDecAux (i2 - i1) []) := by
        rw [hF]
        simp [String.data_append]
        rfl
      rw [hFd]
      simp only [List.append_assoc, List.cons_append, List.nil_append]
      have hstopC := stop_of_head ',' (by decide)
        (natToDecAux (i2 - i1) [] ++ (' ' :: '+' ::
          ((formatRangeUnified j1 j2).data ++ [' ', '@', '@'])))
      have htd := takeDigits_natToDec_stop (i1 + 1)
        (',' :: (natToDecAux (i2 - i1) [] ++ (' ' :: '+' ::
          ((formatRangeUnified j1 j2).data ++ [' ', '@', '@'])))) hstopC
      have hhd : ((natToDecAux (i1 + 1) []) ++ (',' :: (natToDecAux (i2 - i1) []
          ++ (' ' :: '+' :: ((formatRangeUnified j1 j2).data ++
            [' ', '@', '@']))))).headD '@' = c := by
        rw [hc]
        rfl
      have htd2 := takeDigits_natToDec_stop (i2 - i1)
        (' ' :: '+' :: ((formatRangeUnified j1 j2).data ++ [' ', '@', '@'])) hstopT
      have hhd2 : ((natToDecAux (i2 - i1) []) ++ (' ' :: '+' ::
          ((formatRangeUnified j1 j2).data ++ [' ', '@', '@']))).headD '@' = c2 := by
        rw [hc2]
        rfl
      rw [hhd, hdig, if_pos rfl, htd]
      simp only [List.headD_cons, List.tail_cons]
      rw [if_pos trivial]
      rw [hhd2, hdig2, if_pos rfl]
      rw [htd2]
      simp [hd0]

/-! ### Reading a hunk body back -/

theorem readBody_space (ls : List String) :
    ∀ (rest : List String) (aCnt : Nat) (bAcc : List String),
      readBody (ls.map (fun s => " " ++ s) ++ rest) aCnt bAcc =
        readBody rest (aCnt + ls.length) (bAcc ++ ls) := by
  induction ls with
  | nil => intro rest aCnt bAcc; simp
  | cons l ls ih =>
      intro rest aCnt bAcc
      simp only [List.map_cons, List.cons_append]
      rw [readBody]
      have h1 : ((" " ++ l).data).head? = some ' ' := by
        rw [String.data_append]
        rfl
      have h2 : ((" " ++ l).data).tail = l.data := by
        rw [String.data_append]
        rfl
      rw [h1, if_pos rfl, h2]
      have hmk : (⟨l.data⟩ : String) = l := rfl
      rw [hmk, ih rest (aCnt + 1) (bAcc ++ [l])]
      have e1 : aCnt + (l :: ls).length = aCnt + 1 + ls.length := by
        simp only [List.length_cons]
        omega
      have e2 : bAcc ++ l :: ls = (bAcc ++ [l]) ++ ls := by simp
      rw [e1, e2]

theorem readBody_minus (ls : List String) :
    ∀ (rest : List String) (aCnt : Nat) (bAcc : List String),
      readBody (ls.map (fun s => "-" ++ s) ++ rest) aCnt bAcc =
        readBody rest (aCnt + ls.length) bAcc := by
  induction ls with
  | nil => intro rest aCnt bAcc; simp
  | cons l ls ih =>
      intro rest aCnt bAcc
      simp only [List.map_cons, List.cons_append]
      rw [readBody]
      have h1 : (("-" ++ l).data).head? = some '-' := by
        rw [String.data_append]
        rfl
      rw [h1, if_neg (by decide), if_pos rfl, ih rest (aCnt + 1) bAcc]
      have e1 : aCnt + (l :: ls).length = aCnt + 1 + ls.length := by
        simp only [List.length_cons]
        omega
      rw [e1]

theorem readBody_plus (ls : List String) :
    ∀ (rest : List String) (aCnt : Nat) (bAcc : List String),
      readBody (ls.map (fun s => "+" ++ s) ++ rest) aCnt bAcc =
        readBody rest aCnt (bAcc ++ ls) := by
  induction ls with
  | nil => intro rest aCnt bAcc; simp
  | cons l ls ih =>
      intro rest aCnt bAcc
      simp only [List.map_cons, List.cons_append]
      rw [readBody]
      have h1 : (("+" ++ l).data).head? = some '+' := by
        rw [String.data_append]
        rfl
      have h2 : (("+" ++ l).data).tail = l.data := by
        rw [String.data_append]
        rfl
      rw [h1, if_neg (by decide), if_neg (by decide), if_pos rfl, h2]
      have hmk : (⟨l.data⟩ : String) = l := rfl
      rw [hmk, ih rest aCnt (bAcc ++ [l])]
      have e2 : bAcc ++ l :: ls = (bAcc ++ [l]) ++ ls := by simp
      rw [e2]

theorem opsSeg_le (a b : List String) :
    ∀ (g : List Opcode) (X Y x2 y2 : Nat), OpsSeg a b X Y x2 y2 g →
      X ≤ x2 ∧ Y ≤ y2 := by
  intro g
  induction g with
  | nil =>
      intro X Y x2 y2 h
      obtain ⟨e1, e2⟩ := h
      omega
  | cons c g ih =>
      intro X Y x2 y2 h
      obtain ⟨h1, h2, h3, h4, h5, h6, h7, h7m, h7a, h7b, h8⟩ := h
      have hrec := ih _ _ _ _ h8
      omega

theorem readBody_opcode (a b : List String) (c : Opcode)
    (hm : c.tag = "equal" → c.i2 - c.i1 = c.j2 - c.j1 ∧
      MatchSeg a b c.i1 c.j1 (c.i2 - c.i1))
    (htag : c.tag = "equal" ∨ c.tag = "replace" ∨ c.tag = "delete" ∨
      c.tag = "insert")
    (hdel : c.tag = "delete" → c.j1 = c.j2)
    (hins : c.tag = "insert" → c.i1 = c.i2)
    (h12 : c.i1 ≤ c.i2) (h34 : c.j1 ≤ c.j2)
    (hia : c.i2 ≤ a.length) (hjb : c.j2 ≤ b.length) :
    ∀ (rest : List String) (aCnt : Nat) (bAcc : List String),
      readBody (opcodeLines a b c ++ rest) aCnt bAcc =
        readBody rest (aCnt + (c.i2 - c.i1)) (bAcc ++ sliceL b c.j1 c.j2) := by
  intro rest aCnt bAcc
  have eA : (sliceL a c.i1 c.i2).length = c.i2 - c.i1 :=
    sliceL_length a c.i1 c.i2 h12 hia
  rcases htag with he | hr | hd | hi
  · obtain ⟨hlen, hmatch⟩ := hm he
    rw [opcodeLines, if_pos he, readBody_space]
    have hslice : sliceL a c.i1 c.i2 = sliceL b c.j1 c.j2 := by
      have e1 : c.i2 = c.i1 + (c.i2 - c.i1) := by omega
      have e2 : c.j2 = c.j1 + (c.i2 - c.i1) := by omega
      rw [e1, e2]
      exact sliceL_eq_of_match a b (c.i2 - c.i1) c.i1 c.j1 (by omega) (by omega)
        hmatch
    rw [← hslice, eA]
  · rw [opcodeLines, if_neg (by rw [hr]; simp), if_pos (Or.inl hr),
      if_pos (Or.inl hr), List.append_assoc, readBody_minus, readBody_plus, eA]
  · rw [opcodeLines, if_neg (by rw [hd]; simp), if_pos (Or.inr hd),
      if_neg (by rw [hd]; simp)]
    rw [List.append_nil, readBody_minus, eA]
    have e0 : c.j1 = c.j2 := hdel hd
    rw [e0, sliceL_nil, List.append_nil]
  · rw [opcodeLines, if_neg (by rw [hi]; simp), if_neg (by rw [hi]; simp),
      if_pos (Or.inr hi)]
    rw [List.nil_append, readBody_plus]
    have e0 : c.i2 - c.i1 = 0 := by
      have := hins hi
      omega
    rw [e0, Nat.add_zero]

theorem readBody_group (a b : List String) :
    ∀ (g : List Opcode) (X Y x2 y2 : Nat), OpsSeg a b X Y x2 y2 g →
      ∀ (rest : List String) (aCnt : Nat) (bAcc : List String),
        readBody (g.flatMap (opcodeLines a b) ++ rest) aCnt bAcc =
          readBody rest (aCnt + (x2 - X)) (bAcc ++ sliceL b Y y2) := by
  intro g
  induction g with
  | nil =>
      intro X Y x2 y2 h rest aCnt bAcc
      obtain ⟨e1, e2⟩ := h
      subst e1
      subst e2
      simp [sliceL_nil]
  | cons c g ih =>
      intro X Y x2 y2 h rest aCnt bAcc
      obtain ⟨h1, h2, h3, h4, h5, h6, h7, h7m, h7a, h7b, h8⟩ := h
      obtain ⟨hx2, hy2⟩ := opsSeg_le a b g c.i2 c.j2 x2 y2 h8
      rw [List.flatMap_cons, List.append_assoc]
    
      rw [readBody_opcode a b c h7 h7m h7a h7b (by omega) (by omega) h5 h6]
      rw [ih _ _ _ _ h8]
      have e1 : aCnt + (c.i2 - c.i1) + (x2 - c.i2) = aCnt + (x2 - X) := by
        omega
      have e2 : (bAcc ++ sliceL b c.j1 c.j2) ++ sliceL b c.j2 y2 =
          bAcc ++ sliceL b Y y2 := by
        rw [List.append_assoc, sliceL_append b c.j1 c.j2 y2 (by omega) hy2, h2]
      rw [e1, e2]

/-! ### Replaying the hunks -/

theorem sliceL_drop (l : List String) (i j : Nat) (h : i ≤ j) :
    sliceL l i j ++ l.drop j = l.drop i := by
  rw [sliceL]
  conv_rhs => rw [← List.take_append_drop (j - i) (l.drop i)]
  congr 1
  rw [List.drop_drop]
  congr 1
  omega

theorem readBody_stop_header (g : List Opcode) (ls : List String)
    (aCnt : Nat) (bAcc : List String) :
    readBody (hunkHeader g :: ls) aCnt bAcc = (aCnt, bAcc, hunkHeader g :: ls) := by
  have e1 : ("@@ -" : String).data = ['@', '@', ' ', '-'] := rfl
  have h1 : (hunkHeader g).data.head? = some '@' := by
    rw [hunkHeader]
    simp [String.data_append, e1]
  rw [readBody, h1, if_neg (by decide), if_neg (by decide), if_neg (by decide)]

theorem readBody_stop_groups (a b : List String) (gs : List (List Opcode))
    (aCnt : Nat) (bAcc : List String) :
    readBody (gs.flatMap (groupLines a b)) aCnt bAcc =
      (aCnt, bAcc, gs.flatMap (groupLines a b)) := by
  cases gs with
  | nil => rfl
  | cons g2 gs2 =>
      rw [List.flatMap_cons, groupLines, List.cons_append]
      exact readBody_stop_header g2 _ aCnt bAcc

theorem groups_length_le (a b : List String) (gs : List (List Opcode)) :
    gs.length ≤ (gs.flatMap (groupLines a b)).length := by
  induction gs with
  | nil => simp
  | cons g gs ih =>
      simp only [List.flatMap_cons, List.length_append, List.length_cons,
        groupLines]
      omega

theorem opsSeg_last (a b : List String) :
    ∀ (g : List Opcode) (X Y x2 y2 : Nat), OpsSeg a b X Y x2 y2 g → g ≠ [] →
      ∃ lc, g.getLast? = some lc ∧ lc.i2 = x2 ∧ lc.j2 = y2 ∧
        x2 ≤ a.length ∧ y2 ≤ b.length := by
  intro g
  induction g with
  | nil =>
      intro X Y x2 y2 h hne
      exact absurd rfl hne
  | cons c g ih =>
      intro X Y x2 y2 h hne
      obtain ⟨h1, h2, h3, h4, h5, h6, h7, h7m, h7a, h7b, h8⟩ := h
      cases g with
      | nil =>
          obtain ⟨e1, e2⟩ := h8
          exact ⟨c, rfl, e1, e2, by omega, by omega⟩
      | cons c2 g2 =>
          obtain ⟨lc, hlc, hv⟩ := ih c.i2 c.j2 x2 y2 h8 (by simp)
          exact ⟨lc, by rw [List.getLast?_cons_cons]; exact hlc, hv⟩

theorem applyHunksGo_covers (a b : List String) :
    ∀ (gs : List (List Opcode)) (fuel x y : Nat) (out : List String),
      Covers a b x y gs → gs.length ≤ fuel →
      applyHunksGo a fuel x out (gs.flatMap (groupLines a b)) =
        some (out ++ b.drop y) := by
  intro gs
  induction gs with
  | nil =>
      intro fuel x y out hcov hfuel
      obtain ⟨d, hd1, hd2, hd3⟩ := hcov
      simp only [List.flatMap_nil, applyHunksGo]
      rw [matchSeg_drop a b x y d hd1 hd2 hd3]
  | cons g gs ih =>
      intro fuel x y out hcov hfuel
      obtain ⟨d, x2, y2, hm, hne, hseg, hcov2⟩ := hcov
      rw [List.length_cons] at hfuel
      cases fuel with
      | zero => omega
      | succ fuel =>
      cases g with
      | nil => exact absurd rfl hne
      | cons c g' =>
      obtain ⟨lc, hlc, hlci, hlcj, hx2a, hy2b⟩ :=
        opsSeg_last a b (c :: g') (x + d) (y + d) x2 y2 hseg (by simp)
      obtain ⟨hlex, hley⟩ := opsSeg_le a b (c :: g') (x + d) (y + d) x2 y2 hseg
      have h1 : c.i1 = x + d := hseg.1
      have h2 : c.j1 = y + d := hseg.2.1
      have hlastD : (c :: g').getLastD ⟨"", 0, 0, 0, 0⟩ = lc := by
        rw [List.getLastD_eq_getLast?, hlc]
        rfl
      have hH : hunkHeader (c :: g') =
          "@@ -" ++ formatRangeUnified (x + d) x2 ++ " +" ++
            formatRangeUnified (y + d) y2 ++ " @@" := by
        rw [hunkHeader]
        simp only [List.headD_cons]
        rw [hlastD, h1, h2, hlci, hlcj]
      have hparse : parseHunkHeaderA (hunkHeader (c :: g')) = some (x + d) := by
        rw [hH]
        exact parseHunkHeaderA_format (x + d) x2 (y + d) y2
      have hbody := readBody_group a b (c :: g') (x + d) (y + d) x2 y2 hseg
        (gs.flatMap (groupLines a b)) 0 []
      rw [readBody_stop_groups a b gs] at hbody
      rw [List.flatMap_cons, groupLines, List.cons_append]
      simp only [applyHunksGo]
      rw [hparse]
      simp only [Option.isSome_some, Option.getD_some, if_true]
      rw [hbody]
      simp only [Nat.zero_add, List.nil_append]
      have hcond : x ≤ x + d ∧ x + d + (x2 - (x + d)) ≤ a.length :=
        ⟨by omega, by omega⟩
      rw [if_pos hcond]
      rw [show x + d + (x2 - (x + d)) = x2 from by omega]
      rw [ih fuel x2 y2 (out ++ sliceL a x (x + d) ++ sliceL b (y + d) y2)
        hcov2 (by omega)]
      have hS1 : sliceL a x (x + d) = sliceL b y (y + d) :=
        sliceL_eq_of_match a b d x y (by omega) (by omega) hm
      rw [hS1]
      simp only [List.append_assoc]
      rw [sliceL_drop b (y + d) y2 (by omega), sliceL_drop b y (y + d) (by omega)]

/-- Round trip: applying the unified diff of `a` against `b` to `a`
reproduces `b`, whatever the file headers. -/
theorem applyUnifiedDiff_lines (a b : List String) (f1 f2 : String) :
    applyUnifiedDiff (unifiedDiffLines a b f1 f2) a = some b := by
  have hcov := getGroupedOpcodes_covers a b
  rw [unifiedDiffLines]
  by_cases hg : (getGroupedOpcodes a b 3).isEmpty
  · simp only [hg, if_true]
    have hnil : getGroupedOpcodes a b 3 = [] := List.isEmpty_iff.mp hg
    rw [hnil] at hcov
    obtain ⟨d, hd1, hd2, hd3⟩ := hcov
    have hab : a = b := matchSeg_full a b d (by omega) (by omega)
      (by simpa using hd3)
    rw [applyUnifiedDiff, hab]
  · simp only [hg, if_false, Bool.false_eq_true]
    rw [applyUnifiedDiff]
    rw [if_pos ⟨pyStartsWith_append "--- " f1, pyStartsWith_append "+++ " f2⟩]
    have h := applyHunksGo_covers a b (getGroupedOpcodes a b 3)
      ((getGroupedOpcodes a b 3).flatMap (groupLines a b)).length 0 0 []
      hcov (groups_length_le a b _)
    rw [h]
    simp

/-! ## Fix applicator (`src/fixer/fix_applicator.py`)

The filesystem is a partial map from paths to contents; `none` means the
file does not exist.  `FixApplicator` state is the filesystem plus the
`applied_fixes` history.  String operations (`str.replace`, `in`,
`endswith`) are embedded below.  The `try`/`except` wrapper of
`apply_fix` is not modelled: no modelled operation raises. -/

def replaceAux (pat rep : List Char) : Nat → List Char → List Char
  | 0, cs => cs
  | fuel + 1, cs =>
    if charListPrefix pat cs then
      rep ++ replaceAux pat rep fuel (cs.drop pat.length)
    else
      match cs with
      | [] => []
      | c :: rest => c :: replaceAux pat rep fuel rest

/-- Python `s.replace(pat, rep)` for a non-empty pattern. -/
def pyReplace (s pat rep : String) : String :=
  ⟨replaceAux pat.data rep.data s.data.length s.data⟩

def containsAux (pat : List Char) : List Char → Bool
  | [] => charListPrefix pat []
  | c :: rest => charListPrefix pat (c :: rest) || containsAux pat rest

/-- Python `sub in s`. -/
def strContains (s sub : String) : Bool :=
  containsAux sub.data s.data

/-- `new_code if new_code.endswith("\n") else new_code + "\n"`. -/
def ensureNl (s : String) : String :=
  if s.data.getLast? = some '\n' then s else s ++ "\n"

/-- The sort key `lambda x: x.get("line_number", 0)`. -/
def keyOfChange (c : Change) : Int :=
  c.lineNumber.getD 0

/-- The comparison `reverse=True` sorts by: later keys first. -/
def changeLe (x y : Change) : Bool :=
  decide (keyOfChange y ≤ keyOfChange x)

/-- `sorted(changes, key=..., reverse=True)`: a stable descending sort. -/
def sortChangesDesc (cs : List Change) : List Change :=
  sortList changeLe cs

/-- One iteration of the change loop: skip silently unless `line_number`
is truthy, `new_code` is present and the line index is in range. -/
def applyChange (lines : List String) (c : Change) : List String :=
  match c.lineNumber, c.newCode with
  | some ln, some nc =>
    if ln ≠ 0 then
      if 1 ≤ ln ∧ ln ≤ (lines.length : Int) then
        lines.set (ln - 1).toNat (ensureNl nc)
      else lines
    else lines
  | _, _ => lines

/-- `FixApplicator._apply_simple_fix`. -/
def applySimpleFix (fix : Fix) (content : String) : Option String :=
  let issue := fix.issueD
  let issueType := issue.type
  let lineNumber := issue.line
  match lineNumber with
  | none => none
  | some ln =>
    if ln = 0 then none
    else
      let lines := pySplitKeep content
      if ln < 1 ∨ ln > (lines.length : Int) then none
      else
        let lineIdx := (ln - 1).toNat
        let originalLine := lines.getD lineIdx ""
        if issueType = some "none_comparison" then
          some (pyJoin (lines.set lineIdx
            (pyReplace (pyReplace originalLine "== None" "is None")
              "!= None" "is not None")))
        else if issueType = some "bare_except" ∧
            strContains originalLine "except:" then
          some (pyJoin (lines.set lineIdx
            (pyReplace originalLine "except:" "except Exception:")))
        else if issueType = some "wildcard_import" then none
        else if issueType = some "bare_except" then
          -- falls through to the suggestion block below
          let suggestion := fix.suggestionD
          if suggestion ≠ "" ∧ (pySplitKeep suggestion).length = 1 then
            some (pyJoin (lines.set lineIdx (ensureNl suggestion)))
          else none
        else
          let suggestion := fix.suggestionD
          if suggestion ≠ "" ∧ (pySplitKeep suggestion).length = 1 then
            some (pyJoin (lines.set lineIdx (ensureNl suggestion)))
          else none

/-- `FixApplicator._apply_fix_to_content`. -/
def applyFixToContent (fix : Fix) (content : String) : Option String :=
  if fix.changesD = [] then applySimpleFix fix content
  else
    let lines := pySplitKeep content
    some (pyJoin ((sortChangesDesc fix.changesD).foldl applyChange lines))

structure ApplicatorCfg where
  createBackup : Bool
  backupSuffix : String
deriving DecidableEq, Repr

structure FsState where
  fs : String → Option String
  appliedFixes : List Fix

/-- The result dictionary of `apply_fix`; `none` fields are keys the
returned dictionary does not carry. -/
structure ApplyResult where
  success : Bool
  message : String
  fix : Option Fix
  validation : Option ValidationResult
  file : Option String
  diff : Option String
  dryRun : Option Bool
deriving DecidableEq, Repr

def updateFs (fs : String → Option String) (p v : String) :
    String → Option String :=
  fun q => if q = p then some v else fs q

/-- `FixApplicator.apply_fix(fix, dry_run)`. -/
def applyFix (parse : PyParser) (cfg : ApplicatorCfg) (st : FsState)
    (fix : Fix) (dryRun : Bool) : ApplyResult × FsState :=
  let issue := fix.issueD
  match issue.file with
  | none => (⟨false, "File not found: None", some fix, none, none, none, none⟩, st)
  | some p =>
    if p = "" then
      (⟨false, "File not found: ", some fix, none, none, none, none⟩, st)
    else
      match st.fs p with
      | none =>
          (⟨false, "File not found: " ++ p, some fix, none, none, none, none⟩, st)
      | some originalContent =>
        match applyFixToContent fix originalContent with
        | none =>
            (⟨false, "Could not apply fix to content", some fix,
              none, none, none, none⟩, st)
        | some fixedContent =>
          let validation := validateSyntax parse fixedContent
          if !validation.valid then
            (⟨false, "Fix introduces syntax errors: " ++ validation.message,
              some fix, some validation, none, none, none⟩, st)
          else
            let st2 :=
              if !dryRun then
                let fs1 :=
                  if cfg.createBackup then
                    updateFs st.fs (p ++ cfg.backupSuffix) originalContent
                  else st.fs
                ⟨updateFs fs1 p fixedContent, st.appliedFixes ++ [fix]⟩
              else st
            (⟨true, "Fix applied successfully", some fix, none, some p,
              some (generateDiff originalContent fixedContent p),
              some dryRun⟩, st2)

/-- `FixApplicator.apply_fixes_batch(fixes, dry_run)`. -/
def applyFixesBatch (parse : PyParser) (cfg : ApplicatorCfg) :
    FsState → List Fix → Bool → List ApplyResult × FsState
  | st, [], _ => ([], st)
  | st, f :: fs, dryRun =>
    let r := applyFix parse cfg st f dryRun
    let rs := applyFixesBatch parse cfg r.2 fs dryRun
    (r.1 :: rs.1, rs.2)

/-! ### Properties of the change loop -/

theorem changeLe_trans (x y z : Change) (h1 : changeLe x y = true)
    (h2 : changeLe y z = true) : changeLe x z = true := by
  simp only [changeLe, decide_eq_true_eq] at *
  omega

theorem changeLe_total (x y : Change) : (changeLe x y || changeLe y x) = true := by
  simp only [changeLe, Bool.or_eq_true, decide_eq_true_eq]
  omega

/-- The changes the loop does not skip: `line_number` truthy, `new_code`
present, line index within the current line count `n`. -/
def validChange (n : Nat) (c : Change) : Bool :=
  match c.lineNumber, c.newCode with
  | some ln, some _ => decide (ln ≠ 0 ∧ 1 ≤ ln ∧ ln ≤ (n : Int))
  | _, _ => false

theorem applyChange_length (l : List String) (c : Change) :
    (applyChange l c).length = l.length := by
  rcases hl : c.lineNumber with _ | ln <;> rcases hn : c.newCode with _ | nc <;>
      simp only [applyChange, hl, hn]
  split_ifs <;> simp

theorem applyChange_invalid (l : List String) (c : Change)
    (h : validChange l.length c = false) : applyChange l c = l := by
  rcases hl : c.lineNumber with _ | ln <;> rcases hn : c.newCode with _ | nc <;>
      simp only [applyChange, hl, hn] <;> try rfl
  simp only [validChange, hl, hn, decide_eq_false_iff_not] at h
  split_ifs with h1 h2
  · exact absurd ⟨h1, h2.1, h2.2⟩ h
  · rfl
  · rfl

theorem foldl_applyChange_filter :
    ∀ (cs : List Change) (l : List String),
      cs.foldl applyChange l =
        (cs.filter (fun c => validChange l.length c)).foldl applyChange l := by
  intro cs
  induction cs with
  | nil => intro l; rfl
  | cons c cs ih =>
      intro l
      by_cases hv : validChange l.length c = true
      · rw [List.foldl_cons, List.filter_cons_of_pos hv, List.foldl_cons,
          ih (applyChange l c)]
        simp only [applyChange_length]
      · have hv2 : validChange l.length c = false := by
          cases hvb : validChange l.length c
          · rfl
          · exact absurd hvb hv
        rw [List.foldl_cons, applyChange_invalid l c hv2,
          List.filter_cons_of_neg (by simp [hv2]), ih l]

/-! ### The diff's file headers -/

theorem unifiedDiffLines_headers (a b : List String) (f1 f2 : String)
    (h : unifiedDiffLines a b f1 f2 ≠ []) :
    ∃ rest, unifiedDiffLines a b f1 f2 =
      ("--- " ++ f1) :: ("+++ " ++ f2) :: rest := by
  rw [unifiedDiffLines] at h ⊢
  by_cases hg : (getGroupedOpcodes a b 3).isEmpty
  · simp [hg] at h
  · simp only [hg, if_false, Bool.false_eq_true]
    exact ⟨_, rfl⟩

/-! ### Scan shape -/

theorem foldl_extend (g : SrcFile → List DIssue) :
    ∀ (files : List SrcFile) (init : List DIssue),
      files.foldl (fun acc f => acc ++ g f) init = init ++ files.flatMap g := by
  intro files
  induction files with
  | nil => intro init; simp
  | cons f fs ih =>
      intro init
      rw [List.foldl_cons, ih, List.flatMap_cons, List.append_assoc]

/-! ## The claims -/

/-- C1: when the target file exists but the candidate content fails syntax
validation, `apply_fix` fails with the validation detail surfaced, and the
whole applicator state — file contents, backups, applied-fix history — is
untouched. -/
theorem C1_validation_failure (parse : PyParser) (cfg : ApplicatorCfg)
    (st : FsState) (fix : Fix) (dryRun : Bool) (p content fixed : String)
    (hp : fix.issueD.file = some p) (hne : p ≠ "")
    (hfs : st.fs p = some content)
    (hfc : applyFixToContent fix content = some fixed)
    (hval : (validateSyntax parse fixed).valid = false) :
    (applyFix parse cfg st fix dryRun).1.success = false ∧
    (applyFix parse cfg st fix dryRun).1.message =
      "Fix introduces syntax errors: " ++ (validateSyntax parse fixed).message ∧
    (applyFix parse cfg st fix dryRun).1.validation =
      some (validateSyntax parse fixed) ∧
    (applyFix parse cfg st fix dryRun).2 = st := by
  simp only [applyFix, hp, hfs, hfc, if_neg hne, hval]
  simp

def w1Parse : PyParser := fun _ => Except.error ⟨"boom", 1, 0⟩

def w1Fix : Fix :=
  ⟨some ⟨some "t.py", some 1, some "none_comparison", none, none⟩,
    none, none, none, none, none⟩

def w1St : FsState :=
  ⟨fun q => if q = "t.py" then some "if x == None:\n" else none, []⟩

theorem C1_validation_failure_witness :
    applyFixToContent w1Fix "if x == None:\n" = some "if x is None:\n" ∧
    (validateSyntax w1Parse "if x is None:\n").valid = false ∧
    ((applyFix w1Parse ⟨true, ".backup"⟩ w1St w1Fix false).1.success = false ∧
     (applyFix w1Parse ⟨true, ".backup"⟩ w1St w1Fix false).1.message =
       "Fix introduces syntax errors: " ++
         (validateSyntax w1Parse "if x is None:\n").message ∧
     (applyFix w1Parse ⟨true, ".backup"⟩ w1St w1Fix false).1.validation =
       some (validateSyntax w1Parse "if x is None:\n") ∧
     (applyFix w1Parse ⟨true, ".backup"⟩ w1St w1Fix false).2 = w1St) :=
  ⟨by decide, by decide,
    C1_validation_failure w1Parse ⟨true, ".backup"⟩ w1St w1Fix false
      "t.py" "if x == None:\n" "if x is None:\n"
      (by decide) (by decide) (by decide) (by decide) (by decide)⟩

/-- C6: `generate_fix` yields a Fix exactly for the four fixable types;
every produced Fix carries the input issue and `automated = False`. -/
theorem C6_generate_fix (issue : FIssue) (f : Fix) :
    ((generateFix issue).isSome ↔
      (issue.type = some "none_comparison" ∨ issue.type = some "bare_except" ∨
       issue.type = some "dangerous_eval" ∨
       issue.type = some "wildcard_import")) ∧
    (generateFix issue = some f →
      f.issue = some issue ∧ f.automated = some false) := by
  constructor
  · rw [generateFix]
    split_ifs <;> simp_all
  · intro hf
    rw [generateFix] at hf
    split_ifs at hf <;>
      (obtain rfl := Option.some.inj hf; exact ⟨rfl, rfl⟩)

/-- C8: `validate_fix` never consults the original; its verdict is that of
re-parsing the fixed code alone. -/
theorem C8_validate_fix_ignores_original (parse : PyParser)
    (original1 original2 fixed : String) :
    validateFix parse original1 fixed = validateFix parse original2 fixed ∧
    ((validateFix parse original1 fixed).valid = true ↔
      ∃ m, parse fixed = Except.ok m) := by
  refine ⟨rfl, ?_⟩
  cases hp : parse fixed with
  | ok m =>
      simp only [validateFix, validateSyntax, if_pos rfl, hp]
      simp
  | error e =>
      simp only [validateFix, validateSyntax, if_pos rfl, hp]
      simp

/-- C9: with `dry_run = True` the state — files, backups, history — is
untouched, while the computed result agrees with the non-dry run on every
field except the `dry_run` marker itself. -/
theorem C9_dry_run_frame (parse : PyParser) (cfg : ApplicatorCfg)
    (st : FsState) (fix : Fix) :
    (applyFix parse cfg st fix true).2 = st ∧
    (applyFix parse cfg st fix true).1.success =
      (applyFix parse cfg st fix false).1.success ∧
    (applyFix parse cfg st fix true).1.message =
      (applyFix parse cfg st fix false).1.message ∧
    (applyFix parse cfg st fix true).1.fix =
      (applyFix parse cfg st fix false).1.fix ∧
    (applyFix parse cfg st fix true).1.validation =
      (applyFix parse cfg st fix false).1.validation ∧
    (applyFix parse cfg st fix true).1.file =
      (applyFix parse cfg st fix false).1.file ∧
    (applyFix parse cfg st fix true).1.diff =
      (applyFix parse cfg st fix false).1.diff := by
  rcases hf : fix.issueD.file with _ | p
  · simp [applyFix, hf]
  · by_cases hp : p = ""
    · simp [applyFix, hf, hp]
    · rcases hc : st.fs p with _ | content
      · simp [applyFix, hf, hp, hc]
      · rcases hfc : applyFixToContent fix content with _ | fixed
        · simp [applyFix, hf, hp, hc, hfc]
        · by_cases hv : (validateSyntax parse fixed).valid
          · simp [applyFix, hf, hp, hc, hfc, hv]
          · simp [applyFix, hf, hp, hc, hfc, hv]

/-- C2: the batch result has one entry per input Fix, in order: the `i`-th
entry is exactly `apply_fix` of the `i`-th Fix, run from the state left by
the first `i` fixes — no entry is skipped on earlier failures. -/
theorem C2_batch_shape (parse : PyParser) (cfg : ApplicatorCfg) :
    ∀ (fixes : List Fix) (st : FsState) (dryRun : Bool),
      (applyFixesBatch parse cfg st fixes dryRun).1.length = fixes.length ∧
      ∀ (i : Nat) (hi : i < fixes.length),
        (applyFixesBatch parse cfg st fixes dryRun).1[i]? =
          some (applyFix parse cfg
            (applyFixesBatch parse cfg st (fixes.take i) dryRun).2
            (fixes.get ⟨i, hi⟩) dryRun).1 := by
  intro fixes
  induction fixes with
  | nil =>
      intro st dryRun
      exact ⟨rfl, fun i hi => absurd hi (by simp)⟩
  | cons f fs ih =>
      intro st dryRun
      constructor
      · simp only [applyFixesBatch, List.length_cons]
        rw [(ih (applyFix parse cfg st f dryRun).2 dryRun).1]
      · intro i hi
        cases i with
        | zero =>
            simp [applyFixesBatch, List.take_zero]
        | succ j =>
            simp only [applyFixesBatch, List.getElem?_cons_succ]
            have hj : j < fs.length := by simpa using hi
            rw [(ih (applyFix parse cfg st f dryRun).2 dryRun).2 j hj]
            simp [applyFixesBatch, List.take_succ_cons]

/-- C3: the `magic_number` assignment exemption is dead code — no AST node
ever receives a `parent` attribute, so the guard never suppresses a
report, and `x = 42` (a whitelist-free literal as the right-hand side of a
direct assignment) is reported. -/
theorem C3_magic_number_guard_dead :
    qualityIssues "test.py" ⟨[PyStmt.assign [PyExpr.name "x" 1]
        (PyExpr.constant (PyVal.intVal 42) 1) 1]⟩ =
      [mkIssue "test.py" 1 "magic_number"
        "Magic number 42 should be a named constant" "info"] := by
  decide

/-- C5 (amended): one scan is two passes, not one — all of the base
scanner's syntax-error issues come first, then, file by file, the three
detectors' issues in registration order; a file that fails to parse
contributes exactly one critical `syntax_error` in the first pass and
nothing in the second. -/
theorem C5_scan_shape (parse : PyParser) (files : List SrcFile) :
    scanDirectory parse files =
      files.flatMap (fun f => scanFile parse f) ++
      files.flatMap (fun f =>
        detectPatterns parse f.path f.content ++
        detectSecurity parse f.path f.content ++
        detectQuality parse f.path f.content) ∧
    (∀ (f : SrcFile) (e : SynErr), parse f.content = Except.error e →
      analyzePythonFile parse f =
        [⟨f.path, e.lineno, "syntax_error", e.msg, "critical"⟩] ∧
      detectPatterns parse f.path f.content = [] ∧
      detectSecurity parse f.path f.content = [] ∧
      detectQuality parse f.path f.content = []) := by
  constructor
  · rw [scanDirectory, scannerResults]
    have he : (fun (acc : List DIssue) (f : SrcFile) =>
        acc ++ detectPatterns parse f.path f.content
            ++ detectSecurity parse f.path f.content
            ++ detectQuality parse f.path f.content) =
        (fun (acc : List DIssue) (f : SrcFile) =>
          acc ++ (detectPatterns parse f.path f.content
              ++ detectSecurity parse f.path f.content
              ++ detectQuality parse f.path f.content)) := by
      funext acc f
      simp [List.append_assoc]
    rw [he, foldl_extend, foldl_extend]
    simp
  · intro f e he
    exact ⟨by simp [analyzePythonFile, he],
      by simp [detectPatterns, he], by simp [detectSecurity, he],
      by simp [detectQuality, he]⟩

/-- C5's enumeration-order counterexample: with `a.py` (clean, one pattern
finding) enumerated before `b.py` (syntax error), the aggregate lists
`b.py`'s issue first — the issues of one file are neither contiguous nor
in enumeration order. -/
theorem C5_counterexample :
    (scanDirectory
      (fun s =>
        if s = "x == None\n" then
          Except.ok ⟨[PyStmt.exprStmt (PyExpr.compare (PyExpr.name "x" 1)
            [CmpOp.eq] [PyExpr.constant PyVal.noneVal 1] 1) 1]⟩
        else Except.error ⟨"invalid syntax", 1, 0⟩)
      [⟨"a.py", "x == None\n"⟩, ⟨"b.py", "def (\n"⟩]).map
        (fun i => i.file) = ["b.py", "a.py"] := by
  decide

/-- C7 (amended): the argument-count criterion counts `args`,
`posonlyargs` and `kwonlyargs` only — `*args`/`**kwargs` are not formal
parameters for this check; above 7 the issue is reported exactly once, at
the definition line, severity `info`. -/
theorem C7_too_many_arguments (fp nm : String) (ln ln2 : Nat) (a : PyArgs)
    (hd1 : a.defaults = []) (hd2 : a.kwDefaults = []) :
    (qualityIssues fp ⟨[PyStmt.functionDef nm a [PyStmt.passStmt ln2] ln]⟩).filter
        (fun i => i.type = "too_many_arguments") =
      (if 7 < a.args.length + a.posonlyargs.length + a.kwonlyargs.length then
        [mkIssue fp ln "too_many_arguments"
          ("Function \"" ++ nm ++ "\" has " ++
            natToDec (a.args.length + a.posonlyargs.length +
              a.kwonlyargs.length) ++ " arguments (max recommended: 7)") "info"]
      else []) := by
  by_cases h7 : 7 < a.args.length + a.posonlyargs.length + a.kwonlyargs.length <;>
    by_cases hpub : pyStartsWith nm "_" = true <;>
      simp [qualityIssues, qStmts, qStmt, qExprs, totalArgs, getDocstring,
        hd1, hd2, h7, hpub, mkIssue, List.filter]

/-- C7's counterexample to the frozen wording: seven counted parameters
plus `*va` and `**kw` make nine formal parameters over all kinds, yet no
`too_many_arguments` issue is reported. -/
def w7Args : PyArgs :=
  ⟨["p1", "p2"], ["a1", "a2", "a3"], some "va", ["k1", "k2"], [],
    some "kw", []⟩

theorem C7_counterexample :
    (w7Args.posonlyargs.length + w7Args.args.length +
      (if w7Args.vararg.isSome then 1 else 0) + w7Args.kwonlyargs.length +
      (if w7Args.kwarg.isSome then 1 else 0) > 7) ∧
    (qualityIssues "t.py" ⟨[PyStmt.functionDef "f" w7Args
        [PyStmt.passStmt 2] 1]⟩).filter
      (fun i => i.type = "too_many_arguments") = [] := by
  exact ⟨by decide, by decide⟩

/-- C4 (amended): a successful `apply_fix` carries the unified diff of
original against candidate, and replaying that diff (as the line stream
`unified_diff` yielded) over the original's lines reproduces the
candidate's lines — hence, joined, the candidate byte-for-byte.  The
`a/`/`b/` file headers, however, are only present when the diff is
non-empty: for equal contents `unified_diff` yields nothing at all. -/
theorem C4_diff_roundtrip (parse : PyParser) (cfg : ApplicatorCfg)
    (st : FsState) (fix : Fix) (dryRun : Bool) (p content fixed : String)
    (hp : fix.issueD.file = some p) (hne : p ≠ "")
    (hfs : st.fs p = some content)
    (hfc : applyFixToContent fix content = some fixed)
    (hval : (validateSyntax parse fixed).valid = true) :
    (applyFix parse cfg st fix dryRun).1.success = true ∧
    (applyFix parse cfg st fix dryRun).1.diff =
      some (generateDiff content fixed p) ∧
    applyUnifiedDiff
        (unifiedDiffLines (pySplitKeep content) (pySplitKeep fixed)
          ("a/" ++ p) ("b/" ++ p)) (pySplitKeep content) =
      some (pySplitKeep fixed) ∧
    pyJoin (pySplitKeep fixed) = fixed ∧
    (unifiedDiffLines (pySplitKeep content) (pySplitKeep fixed)
        ("a/" ++ p) ("b/" ++ p) ≠ [] →
      ∃ rest, unifiedDiffLines (pySplitKeep content) (pySplitKeep fixed)
          ("a/" ++ p) ("b/" ++ p) =
        ("--- " ++ ("a/" ++ p)) :: ("+++ " ++ ("b/" ++ p)) :: rest) := by
  have hred : (applyFix parse cfg st fix dryRun).1 =
      ⟨true, "Fix applied successfully", some fix, none, some p,
        some (generateDiff content fixed p), some dryRun⟩ := by
    simp only [applyFix, hp, hfs, hfc, if_neg hne, hval]
    simp
  exact ⟨by rw [hred], by rw [hred],
    applyUnifiedDiff_lines (pySplitKeep content) (pySplitKeep fixed)
      ("a/" ++ p) ("b/" ++ p),
    pyJoin_pySplitKeep fixed,
    fun hne2 => unifiedDiffLines_headers (pySplitKeep content)
      (pySplitKeep fixed) ("a/" ++ p) ("b/" ++ p) hne2⟩

def w4Parse : PyParser := fun _ => Except.ok ⟨[]⟩

def w4Fix : Fix :=
  ⟨some ⟨some "t.py", some 1, some "none_comparison", none, none⟩,
    none, none, none, none, none⟩

def w4St : FsState :=
  ⟨fun q => if q = "t.py" then some "if x == None:\n" else none, []⟩

theorem C4_diff_roundtrip_witness :
    applyFixToContent w4Fix "if x == None:\n" = some "if x is None:\n" ∧
    (validateSyntax w4Parse "if x is None:\n").valid = true ∧
    ((applyFix w4Parse ⟨true, ".backup"⟩ w4St w4Fix false).1.success = true ∧
     (applyFix w4Parse ⟨true, ".backup"⟩ w4St w4Fix false).1.diff =
       some (generateDiff "if x == None:\n" "if x is None:\n" "t.py") ∧
     applyUnifiedDiff
         (unifiedDiffLines (pySplitKeep "if x == None:\n")
           (pySplitKeep "if x is None:\n") ("a/" ++ "t.py") ("b/" ++ "t.py"))
         (pySplitKeep "if x == None:\n") =
       some (pySplitKeep "if x is None:\n") ∧
     pyJoin (pySplitKeep "if x is None:\n") = "if x is None:\n" ∧
     (unifiedDiffLines (pySplitKeep "if x == None:\n")
         (pySplitKeep "if x is None:\n") ("a/" ++ "t.py") ("b/" ++ "t.py") ≠ [] →
       ∃ rest, unifiedDiffLines (pySplitKeep "if x == None:\n")
           (pySplitKeep "if x is None:\n") ("a/" ++ "t.py") ("b/" ++ "t.py") =
         ("--- " ++ ("a/" ++ "t.py")) :: ("+++ " ++ ("b/" ++ "t.py")) :: rest)) :=
  ⟨by decide, by decide,
    C4_diff_roundtrip w4Parse ⟨true, ".backup"⟩ w4St w4Fix false
      "t.py" "if x == None:\n" "if x is None:\n"
      (by decide) (by decide) (by decide) (by decide) (by decide)⟩

/-- C4's counterexample to the frozen wording: a successful no-op apply
(candidate equal to the original) returns `success=True` with the empty
diff, which carries no `a/<path>`/`b/<path>` file headers. -/
theorem C4_counterexample :
    (applyFix (fun _ => Except.ok ⟨[]⟩) ⟨true, ".backup"⟩
        ⟨fun q => if q = "v.py" then some "z = 1\n" else none, []⟩
        ⟨some ⟨some "v.py", some 1, some "weird", none, none⟩, none, none,
          some "z = 1", none, none⟩ true).1 =
      ⟨true, "Fix applied successfully",
        some ⟨some ⟨some "v.py", some 1, some "weird", none, none⟩, none, none,
          some "z = 1", none, none⟩, none, some "v.py", some "", some true⟩ ∧
    strContains "" ("a/" ++ "v.py") = false := by
  exact ⟨by decide, by decide⟩

/-- C10: with a non-empty changes list the apply step cannot fail; the
changes run in descending `line_number` order, and the out-of-range or
incomplete ones are skipped with no effect — applying only the valid ones
gives the same content. -/
theorem C10_out_of_range_skipped (fix : Fix) (content : String)
    (h : fix.changesD ≠ []) :
    applyFixToContent fix content =
      some (pyJoin (((sortChangesDesc fix.changesD).filter
        (fun c => validChange (pySplitKeep content).length c)).foldl
          applyChange (pySplitKeep content))) ∧
    List.Pairwise (fun x y => keyOfChange y ≤ keyOfChange x)
      (sortChangesDesc fix.changesD) := by
  constructor
  · rw [applyFixToContent, if_neg h]
    show some (pyJoin ((sortChangesDesc fix.changesD).foldl applyChange
      (pySplitKeep content))) = _
    rw [foldl_applyChange_filter]
  · have hs := sortList_pairwise changeLe changeLe_trans changeLe_total fix.changesD
    refine hs.imp ?_
    intro x y hxy
    simpa [changeLe] using hxy

def w10Fix : Fix :=
  ⟨some ⟨some "t.py", none, none, none, none⟩, none, none, none,
    some [⟨some 2, none, some "B"⟩, ⟨some 99, none, some "nope"⟩,
      ⟨some 0, none, some "zero"⟩, ⟨some 1, none, none⟩], none⟩

theorem C10_out_of_range_skipped_witness :
    w10Fix.changesD ≠ [] ∧
    applyFixToContent w10Fix "a\nb\n" = some "a\nB\n" ∧
    (applyFixToContent w10Fix "a\nb\n" =
      some (pyJoin (((sortChangesDesc w10Fix.changesD).filter
        (fun c => validChange (pySplitKeep "a\nb\n").length c)).foldl
          applyChange (pySplitKeep "a\nb\n"))) ∧
     List.Pairwise (fun x y => keyOfChange y ≤ keyOfChange x)
       (sortChangesDesc w10Fix.changesD)) :=
  ⟨by decide, by decide,
    C10_out_of_range_skipped w10Fix "a\nb\n" (by decide)⟩

def w7bArgs : PyArgs :=
  ⟨["p1", "p2"], ["a1", "a2", "a3", "a4"], some "va", ["k1", "k2"], [],
    some "kw", []⟩

theorem C7_too_many_arguments_witness :
    w7bArgs.defaults = [] ∧ w7bArgs.kwDefaults = [] ∧
    ((qualityIssues "t.py" ⟨[PyStmt.functionDef "g" w7bArgs
        [PyStmt.passStmt 2] 1]⟩).filter
        (fun i => i.type = "too_many_arguments") =
      (if 7 < w7bArgs.args.length + w7bArgs.posonlyargs.length +
          w7bArgs.kwonlyargs.length then
        [mkIssue "t.py" 1 "too_many_arguments"
          ("Function \"" ++ "g" ++ "\" has " ++
            natToDec (w7bArgs.args.length + w7bArgs.posonlyargs.length +
              w7bArgs.kwonlyargs.length) ++ " arguments (max recommended: 7)")
          "info"]
      else [])) :=
  ⟨rfl, rfl, C7_too_many_arguments "t.py" "g" 1 2 w7bArgs rfl rfl⟩

end BugFix
